import Mathlib

/-!
Verification of the content-indexing and pagination pipeline of
`simple_blog_generator`.

The repository holds two near-duplicate implementations:
  * `src/simple_blog_generator/simple_blog_generator.py` (the package
    version, modelled in namespace `SBG`), and
  * `src/simple_blog_generator.py` (the standalone version, modelled in
    namespace `SBGOld`).

Python values are embedded shallowly:
  * a parsed `datetime` is a `Nat` (only its total order matters);
  * `strptime` with the configured format is an explicit parameter
    `parse : String → Option Nat` (`none` models a `ValueError`);
  * Python dicts (insertion ordered) are association lists with
    first-key lookup and in-place update;
  * `assert` failures, `KeyError` and `exit(1)` are `Except` errors;
  * Python's stable `sorted(key=..., reverse=True)` is
    `List.insertionSort` with the relation "has the later-or-equal
    date", which inserts each earlier element before equal-dated later
    ones, reproducing CPython's stable descending sort.
-/

namespace SBG

/-- A post as it sits in `self.posts` when `_sort_posts` runs: its slug
(the dict key), its `category` field and its raw `date` metadata
string. -/
structure RawPost where
  slug : String
  category : String
  dateString : String
  deriving DecidableEq

/-- A `(post_title, date)` pair as stored in `self.sorted_posts`. -/
abbrev Entry := String × Nat

/-- One group of `self.sorted_posts`: a list of `(title, date)` pairs. -/
abbrev Group := List Entry

/-- The `self.sorted_posts` dict: insertion-ordered association list. -/
abbrev Dict := List (String × Group)

/-- First-match lookup, `d[k]` read access (`none` models `KeyError`). -/
def dictLookup (d : Dict) (k : String) : Option Group :=
  match d with
  | [] => none
  | (k', v) :: rest => if k' = k then some v else dictLookup rest k

/-- `d[k] = v`: update the first binding of `k` in place, else append a
new binding (Python dicts keep the original key position on update). -/
def dictSet (d : Dict) (k : String) (v : Group) : Dict :=
  match d with
  | [] => [(k, v)]
  | (k', v') :: rest =>
      if k' = k then (k, v) :: rest else (k', v') :: dictSet rest k v

/-- `d[k].append(p)`; `none` models the `KeyError` raised when `k` is
not a key of `d`. -/
def dictAppend (d : Dict) (k : String) (p : Entry) : Option Dict :=
  match d with
  | [] => none
  | (k', v) :: rest =>
      if k' = k then some ((k', v ++ [p]) :: rest)
      else (dictAppend rest k p).map (fun r => (k', v) :: r)

/-- The keys of a dict, in order. -/
def dictKeys (d : Dict) : List String := d.map Prod.fst

/-- Sort key of `sorted(..., key=lambda elem: elem[1], reverse=True)`:
`a` may stay before `b` iff `b`'s date is not later. -/
def byDateDesc (a b : Entry) : Prop := b.2 ≤ a.2

instance : DecidableRel byDateDesc := fun a b => Nat.decLe b.2 a.2

instance : IsTotal Entry byDateDesc := ⟨fun a b => Nat.le_total b.2 a.2⟩

instance : IsTrans Entry byDateDesc :=
  ⟨fun _ _ _ hab hbc => Nat.le_trans hbc hab⟩

/-- Python's stable descending sort of a group. -/
def sortDesc (g : Group) : Group := List.insertionSort byDateDesc g

/-- How `_sort_posts` can abort: an uncaught `ValueError` from
`datetime.datetime.strptime` (which carries the raw, unparsable date
string), or an uncaught `KeyError` from a dict subscript. -/
inductive SortError where
  | dateError (raw : String)
  | keyError
  deriving DecidableEq

/-- The parsed `(slug, date)` entry a post contributes to its groups
(`date` defaults are irrelevant: it is only read when parsing
succeeded). -/
def postEntry (parse : String → Option Nat) (p : RawPost) : Entry :=
  (p.slug, (parse p.dateString).getD 0)

/-- The body of the `for post_title, post_details in self.posts.items()`
loop of `_sort_posts` (package version): parse the date, append the
entry to the post's category group and to `all_posts`. -/
def sortPostsStep (parse : String → Option Nat) (d : Dict) (p : RawPost) :
    Except SortError Dict :=
  match parse p.dateString with
  | none => .error (.dateError p.dateString)
  | some date =>
      match dictAppend d p.category (p.slug, date) with
      | none => .error .keyError
      | some d' =>
          match dictAppend d' "all_posts" (p.slug, date) with
          | none => .error .keyError
          | some d'' => .ok d''

/-- The sorting pass over the retained categories
(`for category in self.categories: self.sorted_posts[category] = sorted(...)`). -/
def sortCategoriesStep (d : Dict) (c : String) : Except SortError Dict :=
  match dictLookup d c with
  | none => .error .keyError
  | some g => .ok (dictSet d c (sortDesc g))

/-- `_sort_posts` of the package version: build the per-category dict
plus the `all_posts` group, drop empty groups (narrowing
`self.categories`), then stably sort every retained group by date
descending.  Returns the new `self.categories` and `self.sorted_posts`. -/
def sortPosts (parse : String → Option Nat) (categories : List String)
    (posts : List RawPost) : Except SortError (List String × Dict) := do
  let init : Dict :=
    dictSet (categories.foldl (fun d c => dictSet d c []) []) "all_posts" []
  let filled ← posts.foldlM (sortPostsStep parse) init
  let newCategories :=
    categories.filter (fun c => ((dictLookup filled c).getD []).length ≠ 0)
  let pruned := filled.filter (fun kv => kv.2.length ≠ 0)
  let sortedCats ← newCategories.foldlM sortCategoriesStep pruned
  match dictLookup sortedCats "all_posts" with
  | none => .error .keyError
  | some g => .ok (newCategories, dictSet sortedCats "all_posts" (sortDesc g))

/-- How `get_most_recent_post_titles` can abort: a failed `assert`
(precondition violation) or a `KeyError`. -/
inductive QueryError where
  | assertFail
  | keyError
  deriving DecidableEq

/-- `get_most_recent_post_titles` of the package version, acting on an
already-built `(categories, sorted_posts)` state. -/
def getMostRecentPostTitles (categories : List String) (sortedPosts : Dict)
    (category : String) (number offset : Nat) :
    Except QueryError (List String) :=
  if number = 0 then .error .assertFail
  else if ¬(category ∈ categories ∨ category = "all_posts") then
    .error .assertFail
  else
    match dictLookup sortedPosts category with
    | none => .error .keyError
    | some group =>
        let postTitles := group.map Prod.fst
        let numberOfPosts := postTitles.length
        if numberOfPosts = 0 then .ok []
        else if numberOfPosts ≤ offset then .error .assertFail
        else if number + offset ≤ numberOfPosts then
          .ok ((postTitles.drop offset).take number)
        else .ok (postTitles.drop offset)

/-- `number_of_pages` as computed by `_generate_category_pages` and
`_generate_home_pages`: floor division plus one when there is a
remainder. -/
def numberOfPages (n s : Nat) : Nat := n / s + (if n % s ≠ 0 then 1 else 0)

/-- Run one query per page of `range(number_of_pages)`, collecting each
page's item window in page order; the first error aborts. -/
def forEachPage (f : Nat → Except QueryError (List String)) :
    List Nat → Except QueryError (List (List String))
  | [] => .ok []
  | k :: ks =>
      match f k with
      | .error e => .error e
      | .ok w => (forEachPage f ks).map (fun ws => w :: ws)

/-- The per-category part of `_generate_category_pages`: compute the
page count from the group's length and, for page `k`, fetch the window
at offset `k * page_size` via `get_most_recent_post_titles` (through
`_generate_category_page` / `get_most_recent_posts`).  The result is
the sequence of item windows rendered, in page order. -/
def generateCategoryPages (categories : List String) (sortedPosts : Dict)
    (pageSize : Nat) (category : String) :
    Except QueryError (List (List String)) :=
  match dictLookup sortedPosts category with
  | none => .error .keyError
  | some group =>
      let pages := numberOfPages group.length pageSize
      forEachPage
        (fun k =>
          getMostRecentPostTitles categories sortedPosts category pageSize
            (k * pageSize))
        (List.range pages)

/-- `_get_page_name`: the current page's file name and the file names
linked as previous/next (`none` models Python `None`). -/
def getPageName (pageNumber numberOfPages : Nat) :
    String × Option String × Option String :=
  let pageName :=
    if pageNumber = 0 then "index.html"
    else "page" ++ toString pageNumber ++ ".html"
  let previousPage :=
    if pageNumber = 0 then none
    else if pageNumber = 1 then some "index.html"
    else some ("page" ++ toString (pageNumber - 1) ++ ".html")
  let nextPage :=
    if pageNumber = numberOfPages - 1 then none
    else some ("page" ++ toString (pageNumber + 1) ++ ".html")
  (pageName, previousPage, nextPage)

/-- Python's `str.lower()`: lower-case each character (a
kernel-transparent spelling of `String.toLower`). -/
def strLower (s : String) : String := String.mk (s.data.map Char.toLower)

/-- One markdown file as `_get_posts` sees it: the file name's stem,
the front-matter metadata mapping returned by the markdown converter
(key to list of values), and the category directory it was discovered
under. -/
structure SourceFile where
  stem : String
  meta : List (String × List String)
  category : String
  deriving DecidableEq

/-- The three `exit(1)` sites of `_get_posts`. -/
inductive LoadError where
  | duplicateSlug (slug : String)
  | missingTitle
  | missingDate
  deriving DecidableEq

/-- First-match lookup in the metadata mapping. -/
def metaLookup (m : List (String × List String)) (k : String) :
    Option (List String) :=
  match m with
  | [] => none
  | (k', v) :: rest => if k' = k then some v else metaLookup rest k

/-- The body of the file loop of `_get_posts`: derive the slug
(lowercased stem), abort on a duplicate slug, then abort if `title` or
`date` metadata is absent; otherwise record the post. -/
def loadStep (acc : List (String × RawPost)) (f : SourceFile) :
    Except LoadError (List (String × RawPost)) :=
  let postTitle := strLower f.stem
  if postTitle ∈ acc.map Prod.fst then .error (.duplicateSlug postTitle)
  else
    match metaLookup f.meta "title" with
    | none => .error .missingTitle
    | some _ =>
        match metaLookup f.meta "date" with
        | none => .error .missingDate
        | some ds =>
            .ok (acc ++ [(postTitle, ⟨postTitle, f.category, ds.headD ""⟩)])

/-- `_get_posts`: fold the discovered files (in discovery order —
categories in order, files within a category in walk order) into the
`self.posts` dict. -/
def loadPosts (files : List SourceFile) :
    Except LoadError (List (String × RawPost)) :=
  files.foldlM loadStep []

/-- `pathlib`'s `.name` of a path given by its components. -/
def lastName (path : List String) : String := path.getLast?.getD ""

/-- The assets-directory resolution of `_get_posts` (lines 144-153):
`path.parent.name.lower() == post_title` takes the parent, else a
directory `post_title` under the *category* directory, else nothing.
`isdir` models `os.path.isdir`; `parent` is `path.parent`. -/
def assetPath (isdir : List String → Bool)
    (categoryDirectory parent : List String) (stem : String) :
    Option (List String) :=
  let postTitle := strLower stem
  if strLower (lastName parent) = postTitle then some parent
  else if isdir (categoryDirectory ++ [postTitle]) then
    some (categoryDirectory ++ [postTitle])
  else none

/-- Modelled from the claim's words, for comparison with `assetPath`:
"if the file's own parent directory's name equals the document's slug,
the parent directory is the assets path; otherwise, if a sibling
directory named exactly the slug exists, that directory is the assets
path; otherwise the document has no assets path".  A sibling of the
file lives in the file's parent directory. -/
def assetPathClaimed (isdir : List String → Bool)
    (parent : List String) (stem : String) : Option (List String) :=
  let slug := strLower stem
  if lastName parent = slug then some parent
  else if isdir (parent ++ [slug]) then some (parent ++ [slug])
  else none

end SBG

namespace SBGOld

open SBG (RawPost Entry Group Dict dictLookup dictSet dictAppend sortDesc
  SortError QueryError postEntry sortPostsStep sortCategoriesStep)

/-- The loop body of the old `_sort_posts`: parse the date and append
the entry to the post's category group only (no `all_posts`). -/
def sortPostsStepV1 (parse : String → Option Nat) (d : Dict) (p : RawPost) :
    Except SortError Dict :=
  match parse p.dateString with
  | none => .error (.dateError p.dateString)
  | some date =>
      match dictAppend d p.category (p.slug, date) with
      | none => .error .keyError
      | some d' => .ok d'

/-- `_sort_posts` of the standalone version: as the package version but
with no synthetic `all_posts` group. -/
def sortPostsV1 (parse : String → Option Nat) (categories : List String)
    (posts : List RawPost) : Except SortError (List String × Dict) := do
  let init : Dict := categories.foldl (fun d c => dictSet d c []) []
  let filled ← posts.foldlM (sortPostsStepV1 parse) init
  let newCategories :=
    categories.filter (fun c => ((dictLookup filled c).getD []).length ≠ 0)
  let pruned := filled.filter (fun kv => kv.2.length ≠ 0)
  let sortedCats ← newCategories.foldlM sortCategoriesStep pruned
  .ok (newCategories, sortedCats)

/-- `get_most_recent_post_titles` of the standalone version: no
`all_posts` escape hatch in the category assert, and `None` (not an
empty list) is returned for an empty group. -/
def getMostRecentPostTitlesV1 (categories : List String) (sortedPosts : Dict)
    (category : String) (number offset : Nat) :
    Except QueryError (Option (List String)) :=
  if number = 0 then .error .assertFail
  else if category ∉ categories then .error .assertFail
  else
    match dictLookup sortedPosts category with
    | none => .error .keyError
    | some group =>
        let postTitles := group.map Prod.fst
        let numberOfPosts := postTitles.length
        if numberOfPosts = 0 then .ok none
        else if numberOfPosts ≤ offset then .error .assertFail
        else if number + offset ≤ numberOfPosts then
          .ok (some ((postTitles.drop offset).take number))
        else .ok (some (postTitles.drop offset))

end SBGOld

deriving instance DecidableEq for Except

namespace SBG

/-! ### Association-list (Python dict) lemmas -/

theorem dictKeys_cons (k0 : String) (v0 : Group) (rest : Dict) :
    dictKeys ((k0, v0) :: rest) = k0 :: dictKeys rest := rfl

theorem mem_dictKeys_cons {k k0 : String} {v0 : Group} {rest : Dict} :
    k ∈ dictKeys ((k0, v0) :: rest) ↔ k = k0 ∨ k ∈ dictKeys rest := by
  rw [dictKeys_cons, List.mem_cons]

theorem dictLookup_cons (k0 : String) (v0 : Group) (rest : Dict) (k : String) :
    dictLookup ((k0, v0) :: rest) k =
      if k0 = k then some v0 else dictLookup rest k := rfl

theorem dictLookup_eq_none_of_not_mem {d : Dict} {k : String}
    (h : k ∉ dictKeys d) : dictLookup d k = none := by
  induction d with
  | nil => rfl
  | cons kv rest ih =>
      obtain ⟨k0, v0⟩ := kv
      rw [mem_dictKeys_cons] at h
      push_neg at h
      rw [dictLookup_cons, if_neg (fun hh => h.1 hh.symm)]
      exact ih h.2

theorem dictSet_cons (k0 : String) (v0 : Group) (rest : Dict) (k : String)
    (v : Group) :
    dictSet ((k0, v0) :: rest) k v =
      if k0 = k then (k, v) :: rest else (k0, v0) :: dictSet rest k v := rfl

theorem dictAppend_cons (k0 : String) (v0 : Group) (rest : Dict) (k : String)
    (p : Entry) :
    dictAppend ((k0, v0) :: rest) k p =
      if k0 = k then some ((k0, v0 ++ [p]) :: rest)
      else (dictAppend rest k p).map (fun r => (k0, v0) :: r) := rfl

theorem dictLookup_dictSet (d : Dict) (k k' : String) (v : Group) :
    dictLookup (dictSet d k v) k' =
      if k' = k then some v else dictLookup d k' := by
  induction d with
  | nil =>
      show dictLookup [(k, v)] k' = _
      rw [dictLookup_cons]
      by_cases h : k' = k
      · rw [if_pos h.symm, if_pos h]
      · rw [if_neg (fun hh => h hh.symm), if_neg h]
  | cons kv rest ih =>
      obtain ⟨k0, v0⟩ := kv
      rw [dictSet_cons]
      by_cases h0 : k0 = k
      · subst h0
        rw [if_pos rfl, dictLookup_cons, dictLookup_cons]
        by_cases h : k' = k0
        · rw [if_pos h.symm, if_pos h]
        · rw [if_neg (fun hh => h hh.symm), if_neg h,
            if_neg (fun hh => h hh.symm)]
      · rw [if_neg h0, dictLookup_cons, dictLookup_cons]
        by_cases h : k0 = k'
        · have hne : ¬k' = k := fun hh => h0 (h.trans hh)
          rw [if_pos h, if_neg hne, if_pos h]
        · rw [if_neg h, if_neg h, ih]

theorem dictKeys_dictSet_mem (d : Dict) (k : String) (v : Group)
    (h : k ∈ dictKeys d) : dictKeys (dictSet d k v) = dictKeys d := by
  induction d with
  | nil => cases h
  | cons kv rest ih =>
      obtain ⟨k0, v0⟩ := kv
      rw [dictSet_cons]
      by_cases h0 : k0 = k
      · subst h0
        rw [if_pos rfl, dictKeys_cons, dictKeys_cons]
      · rw [mem_dictKeys_cons] at h
        rcases h with h | h
        · exact absurd h.symm h0
        · rw [if_neg h0, dictKeys_cons, dictKeys_cons, ih h]

theorem dictKeys_dictSet_not_mem (d : Dict) (k : String) (v : Group)
    (h : k ∉ dictKeys d) : dictKeys (dictSet d k v) = dictKeys d ++ [k] := by
  induction d with
  | nil => rfl
  | cons kv rest ih =>
      obtain ⟨k0, v0⟩ := kv
      rw [mem_dictKeys_cons] at h
      push_neg at h
      rw [dictSet_cons, if_neg (fun hh => h.1 hh.symm), dictKeys_cons,
        dictKeys_cons, ih h.2]
      rfl

theorem dictAppend_eq_none (d : Dict) (k : String) (p : Entry)
    (h : k ∉ dictKeys d) : dictAppend d k p = none := by
  induction d with
  | nil => rfl
  | cons kv rest ih =>
      obtain ⟨k0, v0⟩ := kv
      rw [mem_dictKeys_cons] at h
      push_neg at h
      rw [dictAppend_cons, if_neg (fun hh => h.1 hh.symm), ih h.2]
      rfl

theorem dictAppend_char (d : Dict) (k : String) (p : Entry)
    (h : k ∈ dictKeys d) :
    ∃ d', dictAppend d k p = some d' ∧ dictKeys d' = dictKeys d ∧
      ∀ k', dictLookup d' k' =
        if k' = k then (dictLookup d k).map (fun g => g ++ [p])
        else dictLookup d k' := by
  induction d with
  | nil => cases h
  | cons kv rest ih =>
      obtain ⟨k0, v0⟩ := kv
      by_cases h0 : k0 = k
      · subst h0
        refine ⟨(k0, v0 ++ [p]) :: rest, ?_, rfl, ?_⟩
        · rw [dictAppend_cons, if_pos rfl]
        · intro k'
          simp only [dictLookup_cons]
          by_cases h' : k0 = k'
          · subst h'
            simp
          · rw [if_neg h', if_neg h', if_neg (fun hh : k' = k0 => h' hh.symm)]
      · rw [mem_dictKeys_cons] at h
        rcases h with h | h
        · exact absurd h.symm h0
        · obtain ⟨r', hr', hkeys, hlk⟩ := ih h
          refine ⟨(k0, v0) :: r', ?_, ?_, ?_⟩
          · rw [dictAppend_cons, if_neg h0, hr']
            rfl
          · rw [dictKeys_cons, dictKeys_cons, hkeys]
          · intro k'
            simp only [dictLookup_cons]
            rw [hlk k']
            by_cases h' : k0 = k'
            · have hne : ¬k' = k := fun hh => h0 (h'.trans hh)
              simp [h', hne]
            · by_cases h'' : k' = k
              · simp [h', h'', h0]
              · simp [h', h'']

theorem dictLookup_filter (d : Dict) (k : String)
    (hnd : (dictKeys d).Nodup) :
    dictLookup (d.filter (fun kv => kv.2.length ≠ 0)) k =
      (dictLookup d k).bind (fun v => if v.length ≠ 0 then some v else none) := by
  induction d with
  | nil => rfl
  | cons kv rest ih =>
      obtain ⟨k0, v0⟩ := kv
      rw [dictKeys_cons, List.nodup_cons] at hnd
      rw [List.filter_cons]
      by_cases hv : v0.length = 0
      · rw [if_neg (by simpa using hv)]
        rw [ih hnd.2, dictLookup_cons]
        by_cases h0 : k0 = k
        · subst h0
          rw [if_pos rfl, dictLookup_eq_none_of_not_mem hnd.1]
          simp [List.length_eq_zero.mp hv]
        · rw [if_neg h0]
      · rw [if_pos (by simpa using hv)]
        rw [dictLookup_cons, dictLookup_cons]
        by_cases h0 : k0 = k
        · rw [if_pos h0, if_pos h0]
          have hv' : v0 ≠ [] := fun hh => hv (by simp [hh])
          simp [hv']
        · rw [if_neg h0, if_neg h0, ih hnd.2]

/-! ### Stable descending sort lemmas -/

theorem sortDesc_sorted (g : Group) : List.Sorted byDateDesc (sortDesc g) :=
  List.sorted_insertionSort byDateDesc g

theorem sortDesc_perm (g : Group) : List.Perm (sortDesc g) g :=
  List.perm_insertionSort byDateDesc g

theorem sortDesc_length (g : Group) : (sortDesc g).length = g.length :=
  (sortDesc_perm g).length_eq

theorem sortDesc_countP (g : Group) (q : Entry → Bool) :
    (sortDesc g).countP q = g.countP q :=
  (sortDesc_perm g).countP_eq q

theorem filter_orderedInsert_date_eq {x : Entry} {d : Nat} (hx : x.2 = d)
    (l : Group) :
    (l.orderedInsert byDateDesc x).filter (fun e => e.2 = d) =
      x :: l.filter (fun e => e.2 = d) := by
  induction l with
  | nil => simp [List.orderedInsert, hx]
  | cons y ys ih =>
      rw [List.orderedInsert]
      by_cases h : byDateDesc x y
      · rw [if_pos h]
        simp [hx]
      · rw [if_neg h]
        have hy : ¬(y.2 = d) := fun hyd =>
          h (show y.2 ≤ x.2 from hx ▸ hyd ▸ le_refl d)
        rw [List.filter_cons, List.filter_cons]
        simp only [decide_eq_true_eq]
        rw [if_neg hy, if_neg hy, ih]

theorem filter_orderedInsert_date_ne {x : Entry} {d : Nat} (hx : ¬(x.2 = d))
    (l : Group) :
    (l.orderedInsert byDateDesc x).filter (fun e => e.2 = d) =
      l.filter (fun e => e.2 = d) := by
  induction l with
  | nil => simp [List.orderedInsert, hx]
  | cons y ys ih =>
      rw [List.orderedInsert]
      by_cases h : byDateDesc x y
      · rw [if_pos h]
        simp [hx]
      · rw [if_neg h, List.filter_cons, List.filter_cons, ih]

/-- Stability of Python's `sorted`: the same-date documents of a group
appear in the sorted group exactly as they appear in the unsorted
group. -/
theorem sortDesc_filter_date (g : Group) (d : Nat) :
    (sortDesc g).filter (fun e => e.2 = d) = g.filter (fun e => e.2 = d) := by
  induction g with
  | nil => rfl
  | cons x xs ih =>
      show ((List.insertionSort byDateDesc xs).orderedInsert byDateDesc x).filter _ = _
      by_cases hx : x.2 = d
      · rw [filter_orderedInsert_date_eq hx]
        show x :: (sortDesc xs).filter _ = _
        rw [ih, List.filter_cons]
        simp [hx]
      · rw [filter_orderedInsert_date_ne hx]
        show (sortDesc xs).filter _ = _
        rw [ih, List.filter_cons]
        simp [hx]

/-! ### Characterizing `_sort_posts` -/

/-- The unsorted group a category accumulates during `_sort_posts`:
its posts' `(slug, date)` entries in discovery order. -/
def grouped (parse : String → Option Nat) (posts : List RawPost)
    (c : String) : Group :=
  (posts.filter (fun p => p.category = c)).map (postEntry parse)

/-- The unsorted `all_posts` group: every post's entry in discovery
order. -/
def allEntries (parse : String → Option Nat) (posts : List RawPost) : Group :=
  posts.map (postEntry parse)

theorem foldFill (parse : String → Option Nat) :
    ∀ (posts : List RawPost) (d : Dict),
      (∀ p ∈ posts, (parse p.dateString).isSome) →
      (∀ p ∈ posts, p.category ∈ dictKeys d) →
      "all_posts" ∈ dictKeys d →
      (∀ p ∈ posts, p.category ≠ "all_posts") →
      ∃ d', posts.foldlM (sortPostsStep parse) d = .ok d' ∧
        dictKeys d' = dictKeys d ∧
        ∀ k, dictLookup d' k = (dictLookup d k).map (fun g =>
          g ++ (if k = "all_posts" then allEntries parse posts
                else grouped parse posts k)) := by
  intro posts
  induction posts with
  | nil =>
      intro d _ _ _ _
      refine ⟨d, rfl, rfl, ?_⟩
      intro k
      cases dictLookup d k <;> simp [allEntries, grouped]
  | cons p ps ih =>
      intro d hparse hcat hap hnotap
      obtain ⟨dt, hdt⟩ := Option.isSome_iff_exists.mp (hparse p (by simp))
      have hpe : postEntry parse p = (p.slug, dt) := by
        simp [postEntry, hdt]
      obtain ⟨d1, hd1, hk1, hl1⟩ :=
        dictAppend_char d p.category (p.slug, dt) (hcat p (by simp))
      obtain ⟨d2, hd2, hk2, hl2⟩ :=
        dictAppend_char d1 "all_posts" (p.slug, dt) (hk1 ▸ hap)
      have hstep : sortPostsStep parse d p = .ok d2 := by
        simp only [sortPostsStep, hdt, hd1, hd2]
      obtain ⟨d', hd', hk', hl'⟩ := ih d2
        (fun q hq => hparse q (by simp [hq]))
        (fun q hq => by rw [hk2, hk1]; exact hcat q (by simp [hq]))
        (by rw [hk2, hk1]; exact hap)
        (fun q hq => hnotap q (by simp [hq]))
      refine ⟨d', ?_, by rw [hk', hk2, hk1], ?_⟩
      · rw [List.foldlM_cons, hstep]
        exact hd'
      · intro k
        rw [hl' k, hl2 k]
        by_cases hkap : k = "all_posts"
        · subst hkap
          have hkc : ¬("all_posts" = p.category) :=
            fun hh => hnotap p (by simp) hh.symm
          rw [if_pos rfl, hl1 "all_posts", if_neg hkc]
          cases dictLookup d "all_posts" <;>
            simp [allEntries, hpe, List.append_assoc]
        · rw [if_neg hkap, hl1 k]
          by_cases hkc : k = p.category
          · rw [if_pos hkc, hkc]
            have hne : ¬(p.category = "all_posts") := hkc ▸ hkap
            cases dictLookup d p.category <;>
              simp [grouped, hne, hpe, List.append_assoc]
          · rw [if_neg hkc]
            have hfc : ¬(p.category = k) := fun hh => hkc hh.symm
            cases dictLookup d k <;> simp [grouped, hkap, hfc]

theorem exceptBindOk {ε α β : Type} (a : α) (f : α → Except ε β) :
    (Except.ok a >>= f) = f a := rfl

theorem exceptBindErr {ε α β : Type} (e : ε) (f : α → Except ε β) :
    ((Except.error e : Except ε α) >>= f) = Except.error e := rfl

theorem mem_dictKeys_dictSet (d : Dict) (k v k') :
    k' ∈ dictKeys (dictSet d k v) ↔ k' = k ∨ k' ∈ dictKeys d := by
  by_cases h : k ∈ dictKeys d
  · rw [dictKeys_dictSet_mem d k v h]
    constructor
    · exact Or.inr
    · rintro (rfl | hm)
      · exact h
      · exact hm
  · rw [dictKeys_dictSet_not_mem d k v h, List.mem_append, List.mem_singleton]
    exact Or.comm

theorem foldSortCats :
    ∀ (cs : List String) (d : Dict), cs.Nodup →
      (∀ c ∈ cs, (dictLookup d c).isSome) →
      ∃ d', cs.foldlM sortCategoriesStep d = .ok d' ∧
        ∀ k, dictLookup d' k =
          if k ∈ cs then (dictLookup d k).map sortDesc else dictLookup d k := by
  intro cs
  induction cs with
  | nil =>
      intro d _ _
      exact ⟨d, rfl, fun k => by simp⟩
  | cons c cs ih =>
      intro d hnd hsome
      rw [List.nodup_cons] at hnd
      obtain ⟨g, hg⟩ := Option.isSome_iff_exists.mp (hsome c (by simp))
      have hstep : sortCategoriesStep d c = .ok (dictSet d c (sortDesc g)) := by
        simp only [sortCategoriesStep, hg]
      obtain ⟨d', hd', hl'⟩ := ih (dictSet d c (sortDesc g)) hnd.2
        (fun c' hc' => by
          rw [dictLookup_dictSet]
          by_cases h : c' = c
          · rw [if_pos h]
            rfl
          · rw [if_neg h]
            exact hsome c' (by simp [hc']))
      refine ⟨d', ?_, ?_⟩
      · rw [List.foldlM_cons, hstep, exceptBindOk]
        exact hd'
      · intro k
        rw [hl' k, dictLookup_dictSet]
        by_cases hk : k ∈ cs
        · have hkc : ¬(k = c) := fun hh => hnd.1 (hh ▸ hk)
          rw [if_pos hk, if_neg hkc, if_pos (by simp [hk])]
        · by_cases hkc : k = c
          · subst hkc
            rw [if_neg hk, if_pos rfl, if_pos (by simp), hg]
            rfl
          · rw [if_neg hk, if_neg hkc,
              if_neg (by simp [hk, hkc])]

theorem dictLookup_foldl_dictSet_empty (cats : List String) (d : Dict)
    (k : String) :
    dictLookup (cats.foldl (fun d c => dictSet d c []) d) k =
      if k ∈ cats then some [] else dictLookup d k := by
  induction cats generalizing d with
  | nil => simp
  | cons c cs ih =>
      simp only [List.foldl_cons, ih, dictLookup_dictSet, List.mem_cons]
      by_cases h1 : k ∈ cs
      · simp [h1]
      · by_cases h2 : k = c <;> simp [h1, h2]

theorem dictKeys_foldl_dictSet_nodup (cats : List String) (d : Dict)
    (hnd : (dictKeys d).Nodup) :
    (dictKeys (cats.foldl (fun d c => dictSet d c []) d)).Nodup := by
  induction cats generalizing d with
  | nil => exact hnd
  | cons c cs ih =>
      simp only [List.foldl_cons]
      refine ih _ ?_
      by_cases h : c ∈ dictKeys d
      · rw [dictKeys_dictSet_mem _ _ _ h]; exact hnd
      · rw [dictKeys_dictSet_not_mem _ _ _ h]
        simpa [List.nodup_append] using ⟨hnd, h⟩

theorem mem_dictKeys_foldl_dictSet (cats : List String) (d : Dict)
    (k : String) :
    k ∈ dictKeys (cats.foldl (fun d c => dictSet d c []) d) ↔
      k ∈ cats ∨ k ∈ dictKeys d := by
  induction cats generalizing d with
  | nil => simp
  | cons c cs ih =>
      simp only [List.foldl_cons, ih, List.mem_cons]
      by_cases h : c ∈ dictKeys d
      · rw [dictKeys_dictSet_mem _ _ _ h]
        constructor
        · rintro (h1 | h2)
          · exact Or.inl (Or.inr h1)
          · exact Or.inr h2
        · rintro ((rfl | h1) | h2)
          · exact Or.inr h
          · exact Or.inl h1
          · exact Or.inr h2
      · rw [dictKeys_dictSet_not_mem _ _ _ h]
        simp only [List.mem_append, List.mem_singleton]
        constructor
        · rintro (h1 | (h2 | rfl))
          · exact Or.inl (Or.inr h1)
          · exact Or.inr h2
          · exact Or.inl (Or.inl rfl)
        · rintro ((rfl | h1) | h2)
          · exact Or.inr (Or.inr rfl)
          · exact Or.inl h1
          · exact Or.inr (Or.inl h2)

theorem initDict_keys_nodup (cats : List String) :
    (dictKeys
        (dictSet (cats.foldl (fun d c => dictSet d c []) []) "all_posts" [])).Nodup := by
  have h0 : (dictKeys (cats.foldl (fun d c => dictSet d c []) [])).Nodup :=
    dictKeys_foldl_dictSet_nodup cats [] (by simp [dictKeys])
  by_cases h : "all_posts" ∈ dictKeys (cats.foldl (fun d c => dictSet d c []) [])
  · rw [dictKeys_dictSet_mem _ _ _ h]
    exact h0
  · rw [dictKeys_dictSet_not_mem _ _ _ h]
    simp [List.nodup_append, h0, h]

theorem initDict_keys_mem (cats : List String) (k : String) :
    k ∈ dictKeys
        (dictSet (cats.foldl (fun d c => dictSet d c []) []) "all_posts" []) ↔
      k = "all_posts" ∨ k ∈ cats := by
  rw [mem_dictKeys_dictSet, mem_dictKeys_foldl_dictSet]
  simp [dictKeys]

theorem initDict_lookup (cats : List String) (k : String) :
    dictLookup
        (dictSet (cats.foldl (fun d c => dictSet d c []) []) "all_posts" []) k =
      if k = "all_posts" ∨ k ∈ cats then some [] else none := by
  rw [dictLookup_dictSet, dictLookup_foldl_dictSet_empty]
  by_cases h1 : k = "all_posts"
  · simp [h1]
  · by_cases h2 : k ∈ cats <;> simp [h1, h2, dictLookup]

/-- Evaluation of `get_most_recent_post_titles` (package version) on a
group that the offset does not exhaust: the slice
`post_titles[offset:offset+number]` (which both return branches equal
when they run). -/
theorem getMostRecent_eval (categories : List String) (sortedPosts : Dict)
    (category : String) (n off : Nat) (group : Group)
    (hn : n ≠ 0) (hmem : category ∈ categories ∨ category = "all_posts")
    (hlk : dictLookup sortedPosts category = some group)
    (hoff : off < group.length) :
    getMostRecentPostTitles categories sortedPosts category n off =
      .ok (((group.map Prod.fst).drop off).take n) := by
  have hlen : (group.map Prod.fst).length = group.length := List.length_map _ _
  rw [getMostRecentPostTitles, if_neg hn, if_neg (not_not_intro hmem), hlk]
  simp only [hlen]
  rw [if_neg (fun hh : group.length = 0 => by omega)]
  rw [if_neg (fun hh : group.length ≤ off => by omega)]
  by_cases hcap : n + off ≤ group.length
  · rw [if_pos hcap]
  · rw [if_neg hcap]
    have hsh : ((group.map Prod.fst).drop off).length ≤ n := by
      rw [List.length_drop, hlen]
      omega
    rw [List.take_of_length_le hsh]

/-- On an empty group (the dead-in-practice early return), a nonzero
count yields the empty list. -/
theorem getMostRecent_empty (categories : List String) (sortedPosts : Dict)
    (category : String) (n off : Nat)
    (hn : n ≠ 0) (hmem : category ∈ categories ∨ category = "all_posts")
    (hlk : dictLookup sortedPosts category = some []) :
    getMostRecentPostTitles categories sortedPosts category n off = .ok [] := by
  rw [getMostRecentPostTitles, if_neg hn, if_neg (not_not_intro hmem), hlk]
  rfl

/-- Offset at or beyond a non-empty group: `assert offset < len` fires. -/
theorem getMostRecent_offsetFail (categories : List String)
    (sortedPosts : Dict) (category : String) (n off : Nat) (group : Group)
    (hn : n ≠ 0) (hmem : category ∈ categories ∨ category = "all_posts")
    (hlk : dictLookup sortedPosts category = some group)
    (hgne : group ≠ []) (hoff : group.length ≤ off) :
    getMostRecentPostTitles categories sortedPosts category n off =
      .error .assertFail := by
  have hlen : (group.map Prod.fst).length = group.length := List.length_map _ _
  have hpos : 0 < group.length := List.length_pos.mpr hgne
  rw [getMostRecentPostTitles, if_neg hn, if_neg (not_not_intro hmem), hlk]
  simp only [hlen]
  rw [if_neg (fun hh : group.length = 0 => by omega), if_pos hoff]

/-- Full characterization of a successful `_sort_posts` run (package
version): the narrowed category list and every lookup in the resulting
`sorted_posts` dict. -/
theorem sortPosts_char (parse : String → Option Nat) (categories : List String)
    (posts : List RawPost)
    (hnd : categories.Nodup) (hap : "all_posts" ∉ categories)
    (hcat : ∀ p ∈ posts, p.category ∈ categories)
    (hparse : ∀ p ∈ posts, (parse p.dateString).isSome)
    (hne : posts ≠ []) :
    ∃ dict, sortPosts parse categories posts =
        .ok (categories.filter (fun c => grouped parse posts c ≠ []), dict) ∧
      ∀ k, dictLookup dict k =
        if k = "all_posts" then some (sortDesc (allEntries parse posts))
        else if k ∈ categories ∧ grouped parse posts k ≠ [] then
          some (sortDesc (grouped parse posts k))
        else none := by
  obtain ⟨filled, hfill, hkeys, hlook⟩ := foldFill parse posts
    (dictSet (categories.foldl (fun d c => dictSet d c []) []) "all_posts" [])
    hparse
    (fun p hp => (initDict_keys_mem categories p.category).mpr
      (Or.inr (hcat p hp)))
    ((initDict_keys_mem categories "all_posts").mpr (Or.inl rfl))
    (fun p hp hh => hap (hh ▸ hcat p hp))
  have hfl : ∀ k, dictLookup filled k =
      if k = "all_posts" then some (allEntries parse posts)
      else if k ∈ categories then some (grouped parse posts k) else none := by
    intro k
    rw [hlook k, initDict_lookup]
    by_cases h1 : k = "all_posts"
    · simp [h1]
    · by_cases h2 : k ∈ categories <;> simp [h1, h2]
  have hNC : categories.filter
        (fun c => ((dictLookup filled c).getD []).length ≠ 0) =
      categories.filter (fun c => grouped parse posts c ≠ []) := by
    apply List.filter_congr
    intro c hc
    rw [hfl c, if_neg (fun hh : c = "all_posts" => hap (hh ▸ hc)), if_pos hc]
    simp only [Option.getD_some]
    exact decide_eq_decide.mpr (not_congr List.length_eq_zero)
  have hnodupF : (dictKeys filled).Nodup := by
    rw [hkeys]
    exact initDict_keys_nodup categories
  have hpl : ∀ k, dictLookup (filled.filter (fun kv => kv.2.length ≠ 0)) k =
      (dictLookup filled k).bind
        (fun v => if v.length ≠ 0 then some v else none) :=
    fun k => dictLookup_filter filled k hnodupF
  have hgne : (allEntries parse posts).length ≠ 0 := by
    simp only [allEntries, List.length_map]
    exact fun hh => hne (List.length_eq_zero.mp hh)
  obtain ⟨sorted', hsorted, hsl⟩ := foldSortCats
    (categories.filter (fun c => grouped parse posts c ≠ []))
    (filled.filter (fun kv => kv.2.length ≠ 0))
    (hnd.filter _)
    (fun c hc => by
      obtain ⟨hc1, hc2⟩ := List.mem_filter.mp hc
      have hc2' : grouped parse posts c ≠ [] := of_decide_eq_true hc2
      rw [hpl c, hfl c, if_neg (fun hh : c = "all_posts" => hap (hh ▸ hc1)),
        if_pos hc1]
      simp only [Option.some_bind]
      rw [if_pos (fun hh => hc2' (List.length_eq_zero.mp hh))]
      rfl)
  have hapnc : "all_posts" ∉
      categories.filter (fun c => grouped parse posts c ≠ []) :=
    fun hh => hap (List.mem_filter.mp hh).1
  have hsap : dictLookup sorted' "all_posts" =
      some (allEntries parse posts) := by
    rw [hsl "all_posts", if_neg hapnc, hpl "all_posts", hfl "all_posts",
      if_pos rfl, Option.some_bind, if_pos hgne]
  refine ⟨dictSet sorted' "all_posts" (sortDesc (allEntries parse posts)),
    ?_, ?_⟩
  · simp only [sortPosts]
    rw [hfill]
    simp only [exceptBindOk]
    rw [hNC, hsorted]
    simp only [exceptBindOk]
    rw [hsap]
  · intro k
    rw [dictLookup_dictSet]
    by_cases h1 : k = "all_posts"
    · rw [if_pos h1, if_pos h1]
    · rw [if_neg h1, if_neg h1, hsl k]
      by_cases h2 : k ∈ categories.filter (fun c => grouped parse posts c ≠ [])
      · obtain ⟨h2a, h2b⟩ := List.mem_filter.mp h2
        have h2b' : grouped parse posts k ≠ [] := of_decide_eq_true h2b
        rw [if_pos h2, hpl k, hfl k, if_neg h1, if_pos h2a, Option.some_bind,
          if_pos (fun hh => h2b' (List.length_eq_zero.mp hh)),
          if_pos ⟨h2a, h2b'⟩]
        rfl
      · rw [if_neg h2, hpl k, hfl k, if_neg h1]
        by_cases h3 : k ∈ categories
        · rw [if_pos h3, Option.some_bind]
          have h4 : grouped parse posts k = [] := by
            by_contra h4
            exact h2 (List.mem_filter.mpr ⟨h3, decide_eq_true h4⟩)
          rw [if_neg (fun hh => hh (by rw [h4]; rfl)),
            if_neg (fun hh => hh.2 h4)]
        · rw [if_neg h3, if_neg (fun hh => h3 hh.1)]
          rfl

end SBG

namespace SBGOld

open SBG

theorem foldFillV1 (parse : String → Option Nat) :
    ∀ (posts : List RawPost) (d : Dict),
      (∀ p ∈ posts, (parse p.dateString).isSome) →
      (∀ p ∈ posts, p.category ∈ dictKeys d) →
      ∃ d', posts.foldlM (sortPostsStepV1 parse) d = .ok d' ∧
        dictKeys d' = dictKeys d ∧
        ∀ k, dictLookup d' k =
          (dictLookup d k).map (fun g => g ++ grouped parse posts k) := by
  intro posts
  induction posts with
  | nil =>
      intro d _ _
      refine ⟨d, rfl, rfl, fun k => ?_⟩
      cases dictLookup d k <;> simp [grouped]
  | cons p ps ih =>
      intro d hparse hcat
      obtain ⟨dt, hdt⟩ := Option.isSome_iff_exists.mp (hparse p (by simp))
      have hpe : postEntry parse p = (p.slug, dt) := by
        simp [postEntry, hdt]
      obtain ⟨d1, hd1, hk1, hl1⟩ :=
        dictAppend_char d p.category (p.slug, dt) (hcat p (by simp))
      have hstep : sortPostsStepV1 parse d p = .ok d1 := by
        simp only [sortPostsStepV1, hdt, hd1]
      obtain ⟨d', hd', hk', hl'⟩ := ih d1
        (fun q hq => hparse q (by simp [hq]))
        (fun q hq => by rw [hk1]; exact hcat q (by simp [hq]))
      refine ⟨d', ?_, by rw [hk', hk1], ?_⟩
      · rw [List.foldlM_cons, hstep, exceptBindOk]
        exact hd'
      · intro k
        rw [hl' k, hl1 k]
        by_cases hkc : k = p.category
        · rw [if_pos hkc, hkc]
          cases dictLookup d p.category <;>
            simp [grouped, hpe, List.append_assoc]
        · rw [if_neg hkc]
          have hfc : ¬(p.category = k) := fun hh => hkc hh.symm
          cases dictLookup d k <;> simp [grouped, hfc]

/-- Full characterization of a successful `_sort_posts` run of the
standalone version. -/
theorem sortPostsV1_char (parse : String → Option Nat)
    (categories : List String) (posts : List RawPost)
    (hnd : categories.Nodup)
    (hcat : ∀ p ∈ posts, p.category ∈ categories)
    (hparse : ∀ p ∈ posts, (parse p.dateString).isSome) :
    ∃ dict, sortPostsV1 parse categories posts =
        .ok (categories.filter (fun c => grouped parse posts c ≠ []), dict) ∧
      ∀ k, dictLookup dict k =
        if k ∈ categories ∧ grouped parse posts k ≠ [] then
          some (sortDesc (grouped parse posts k))
        else none := by
  obtain ⟨filled, hfill, hkeys, hlook⟩ := foldFillV1 parse posts
    (categories.foldl (fun d c => dictSet d c []) [])
    hparse
    (fun p hp => (mem_dictKeys_foldl_dictSet categories [] p.category).mpr
      (Or.inl (hcat p hp)))
  have hfl : ∀ k, dictLookup filled k =
      if k ∈ categories then some (grouped parse posts k) else none := by
    intro k
    rw [hlook k, dictLookup_foldl_dictSet_empty]
    by_cases h2 : k ∈ categories <;> simp [h2, dictLookup]
  have hNC : categories.filter
        (fun c => ((dictLookup filled c).getD []).length ≠ 0) =
      categories.filter (fun c => grouped parse posts c ≠ []) := by
    apply List.filter_congr
    intro c hc
    rw [hfl c, if_pos hc]
    simp only [Option.getD_some]
    exact decide_eq_decide.mpr (not_congr List.length_eq_zero)
  have hnodupF : (dictKeys filled).Nodup := by
    rw [hkeys]
    exact dictKeys_foldl_dictSet_nodup categories [] (by simp [dictKeys])
  have hpl : ∀ k, dictLookup (filled.filter (fun kv => kv.2.length ≠ 0)) k =
      (dictLookup filled k).bind
        (fun v => if v.length ≠ 0 then some v else none) :=
    fun k => dictLookup_filter filled k hnodupF
  obtain ⟨sorted1, hsorted, hsl⟩ := foldSortCats
    (categories.filter (fun c => grouped parse posts c ≠ []))
    (filled.filter (fun kv => kv.2.length ≠ 0))
    (hnd.filter _)
    (fun c hc => by
      obtain ⟨hc1, hc2⟩ := List.mem_filter.mp hc
      have hc2a : grouped parse posts c ≠ [] := of_decide_eq_true hc2
      rw [hpl c, hfl c, if_pos hc1]
      simp only [Option.some_bind]
      rw [if_pos (fun hh => hc2a (List.length_eq_zero.mp hh))]
      rfl)
  refine ⟨sorted1, ?_, ?_⟩
  · simp only [sortPostsV1]
    rw [hfill]
    simp only [exceptBindOk]
    rw [hNC, hsorted]
    rfl
  · intro k
    rw [hsl k]
    by_cases h2 : k ∈ categories.filter (fun c => grouped parse posts c ≠ [])
    · obtain ⟨h2a, h2b⟩ := List.mem_filter.mp h2
      have h2b2 : grouped parse posts k ≠ [] := of_decide_eq_true h2b
      rw [if_pos h2, hpl k, hfl k, if_pos h2a, Option.some_bind,
        if_pos (fun hh => h2b2 (List.length_eq_zero.mp hh)),
        if_pos ⟨h2a, h2b2⟩]
      rfl
    · rw [if_neg h2, hpl k, hfl k]
      by_cases h3 : k ∈ categories
      · rw [if_pos h3, Option.some_bind]
        have h4 : grouped parse posts k = [] := by
          by_contra h4
          exact h2 (List.mem_filter.mpr ⟨h3, decide_eq_true h4⟩)
        rw [if_neg (fun hh => hh (by rw [h4]; rfl)),
          if_neg (fun hh => hh.2 h4)]
      · rw [if_neg h3, if_neg (fun hh => h3 hh.1)]
        rfl

/-- Evaluation of `get_most_recent_post_titles` (standalone version) on
a group that the offset does not exhaust. -/
theorem getMostRecentV1_eval (categories : List String) (sortedPosts : Dict)
    (category : String) (n off : Nat) (group : Group)
    (hn : n ≠ 0) (hmem : category ∈ categories)
    (hlk : dictLookup sortedPosts category = some group)
    (hoff : off < group.length) :
    getMostRecentPostTitlesV1 categories sortedPosts category n off =
      .ok (some (((group.map Prod.fst).drop off).take n)) := by
  have hlen : (group.map Prod.fst).length = group.length := List.length_map _ _
  rw [getMostRecentPostTitlesV1, if_neg hn, if_neg (not_not_intro hmem), hlk]
  simp only [hlen]
  rw [if_neg (fun hh : group.length = 0 => by omega)]
  rw [if_neg (fun hh : group.length ≤ off => by omega)]
  by_cases hcap : n + off ≤ group.length
  · rw [if_pos hcap]
  · rw [if_neg hcap]
    have hsh : ((group.map Prod.fst).drop off).length ≤ n := by
      rw [List.length_drop, hlen]
      omega
    rw [List.take_of_length_le hsh]

end SBGOld

namespace SBG

/-! ### Pagination arithmetic -/

/-- `number_of_pages` is the ceiling of `n / s`. -/
theorem numberOfPages_eq_ceil (n s : Nat) (hs : 0 < s) :
    numberOfPages n s = (n + s - 1) / s := by
  rw [numberOfPages]
  have hdm := Nat.div_add_mod n s
  have hmod : n % s < s := Nat.mod_lt n hs
  obtain ⟨q, hq⟩ : ∃ q, n / s = q := ⟨_, rfl⟩
  obtain ⟨r, hr⟩ : ∃ r, n % s = r := ⟨_, rfl⟩
  obtain ⟨m, hm⟩ : ∃ m, s * q = m := ⟨_, rfl⟩
  rw [hq, hr, hm] at hdm
  rw [hr] at hmod
  rw [hq, hr]
  have e1 : q * s = m := by rw [← hm, Nat.mul_comm]
  have e2 : Nat.succ q * s = m + s := by rw [Nat.succ_mul, e1]
  have e3 : Nat.succ (q + 1) * s = m + s + s := by
    rw [Nat.succ_mul, Nat.succ_mul, e1]
  by_cases h : r = 0
  · rw [if_neg (not_not_intro h)]
    have hd : (n + s - 1) / s = q :=
      Nat.div_eq_of_lt_le (by rw [e1]; omega) (by rw [e2]; omega)
    rw [hd]
    rfl
  · rw [if_pos h]
    have hd : (n + s - 1) / s = q + 1 :=
      Nat.div_eq_of_lt_le (by rw [e2]; omega) (by rw [e3]; omega)
    rw [hd]

theorem ceil_succ_form (n s : Nat) (hs : 0 < s) (hn : 0 < n) :
    (n + s - 1) / s = (n - 1) / s + 1 := by
  have h1 : n + s - 1 = (n - 1) + s := by omega
  rw [h1, Nat.add_div_right _ hs]

theorem le_pages_mul (n s : Nat) (hs : 0 < s) :
    n ≤ ((n + s - 1) / s) * s := by
  rcases Nat.eq_zero_or_pos n with hn | hn
  · simp [hn]
  · rw [ceil_succ_form n s hs hn, Nat.succ_mul, Nat.mul_comm ((n - 1) / s) s]
    obtain ⟨m, hm⟩ : ∃ m, s * ((n - 1) / s) = m := ⟨_, rfl⟩
    obtain ⟨r, hr⟩ : ∃ r, (n - 1) % s = r := ⟨_, rfl⟩
    have hdm := Nat.div_add_mod (n - 1) s
    have hmod := Nat.mod_lt (n - 1) hs
    rw [hm, hr] at hdm
    rw [hr] at hmod
    rw [hm]
    omega

theorem pages_pos_of_pos (n s : Nat) (hs : 0 < s)
    (hP : 0 < (n + s - 1) / s) : 0 < n := by
  by_contra hn
  have hn0 : n = 0 := by omega
  subst hn0
  rw [Nat.div_eq_of_lt (by omega)] at hP
  exact absurd hP (by omega)

theorem page_offset_lt (n s k : Nat) (hs : 0 < s)
    (hk : k < (n + s - 1) / s) : k * s < n := by
  have hn : 0 < n := pages_pos_of_pos n s hs (by omega)
  rw [ceil_succ_form n s hs hn] at hk
  have h1 : k * s ≤ ((n - 1) / s) * s :=
    Nat.mul_le_mul_right s (by omega)
  have h2 : ((n - 1) / s) * s ≤ n - 1 := Nat.div_mul_le_self _ _
  obtain ⟨a, ha⟩ : ∃ a, k * s = a := ⟨_, rfl⟩
  obtain ⟨b, hb⟩ : ∃ b, ((n - 1) / s) * s = b := ⟨_, rfl⟩
  rw [ha, hb] at h1
  rw [hb] at h2
  rw [ha]
  omega

theorem page_full_le (n s k : Nat) (hs : 0 < s)
    (hk : k + 1 < (n + s - 1) / s) : k * s + s ≤ n := by
  have hn : 0 < n := pages_pos_of_pos n s hs (by omega)
  rw [ceil_succ_form n s hs hn] at hk
  have h1 : (k + 1) * s ≤ ((n - 1) / s) * s :=
    Nat.mul_le_mul_right s (by omega)
  have h2 : ((n - 1) / s) * s ≤ n - 1 := Nat.div_mul_le_self _ _
  rw [Nat.succ_mul] at h1
  obtain ⟨a, ha⟩ : ∃ a, k * s = a := ⟨_, rfl⟩
  obtain ⟨b, hb⟩ : ∃ b, ((n - 1) / s) * s = b := ⟨_, rfl⟩
  rw [ha, hb] at h1
  rw [hb] at h2
  rw [ha]
  omega

/-- Concatenating the `s`-sized windows at offsets `0, s, 2s, …`
reproduces the whole list. -/
theorem join_chunks (s : Nat) :
    ∀ (P : Nat) (l : List String), l.length ≤ P * s →
      ((List.range P).map (fun k => (l.drop (k * s)).take s)).flatten = l := by
  intro P
  induction P with
  | zero =>
      intro l hl
      have hnil : l = [] := List.eq_nil_of_length_eq_zero (by omega)
      simp [hnil]
  | succ P ih =>
      intro l hl
      rw [List.range_succ_eq_map, List.map_cons, List.map_map, List.flatten_cons]
      have hhead : (l.drop (0 * s)).take s = l.take s := by
        simp
      have hshift : ((List.range P).map
            ((fun k => (l.drop (k * s)).take s) ∘ Nat.succ)) =
          (List.range P).map (fun k => ((l.drop s).drop (k * s)).take s) := by
        apply List.map_congr_left
        intro k _
        simp only [Function.comp_apply]
        rw [List.drop_drop, Nat.succ_mul, Nat.add_comm (k * s) s]
      rw [hhead, hshift, ih (l.drop s) ?_, List.take_append_drop]
      rw [List.length_drop]
      rw [Nat.succ_mul] at hl
      obtain ⟨a, ha⟩ : ∃ a, P * s = a := ⟨_, rfl⟩
      rw [ha] at hl
      rw [ha]
      omega

theorem forEachPage_ok (f : Nat → Except QueryError (List String))
    (g : Nat → List String) :
    ∀ ks : List Nat, (∀ k ∈ ks, f k = .ok (g k)) →
      forEachPage f ks = .ok (ks.map g) := by
  intro ks
  induction ks with
  | nil => intro _; rfl
  | cons k ks ih =>
      intro h
      rw [forEachPage, h k (by simp), ih (fun k' hk' => h k' (by simp [hk']))]
      rfl

end SBG

namespace SBG

/-! ### Loader lemmas -/

/-- The slug `_get_posts` derives for a file. -/
def fileSlug (f : SourceFile) : String := strLower f.stem

theorem loadStep_ok (acc : List (String × RawPost)) (f : SourceFile)
    (h1 : fileSlug f ∉ acc.map Prod.fst)
    (h2 : (metaLookup f.meta "title").isSome)
    (h3 : (metaLookup f.meta "date").isSome) :
    ∃ r : RawPost, loadStep acc f = .ok (acc ++ [(fileSlug f, r)]) := by
  obtain ⟨t, ht⟩ := Option.isSome_iff_exists.mp h2
  obtain ⟨ds, hds⟩ := Option.isSome_iff_exists.mp h3
  refine ⟨⟨fileSlug f, f.category, ds.headD ""⟩, ?_⟩
  have h1a : strLower f.stem ∉ acc.map Prod.fst := h1
  simp only [loadStep, ht, hds]
  rw [if_neg h1a]
  rfl

theorem loadStep_dup (acc : List (String × RawPost)) (f : SourceFile)
    (h : fileSlug f ∈ acc.map Prod.fst) :
    loadStep acc f = .error (.duplicateSlug (fileSlug f)) := by
  have ha : strLower f.stem ∈ acc.map Prod.fst := h
  simp only [loadStep]
  rw [if_pos ha]
  rfl

theorem loadStep_noTitle (acc : List (String × RawPost)) (f : SourceFile)
    (h1 : fileSlug f ∉ acc.map Prod.fst)
    (h2 : metaLookup f.meta "title" = none) :
    loadStep acc f = .error .missingTitle := by
  have h1a : strLower f.stem ∉ acc.map Prod.fst := h1
  simp only [loadStep, h2]
  rw [if_neg h1a]

theorem loadStep_noDate (acc : List (String × RawPost)) (f : SourceFile)
    (h1 : fileSlug f ∉ acc.map Prod.fst)
    (h2 : (metaLookup f.meta "title").isSome)
    (h3 : metaLookup f.meta "date" = none) :
    loadStep acc f = .error .missingDate := by
  obtain ⟨t, ht⟩ := Option.isSome_iff_exists.mp h2
  have h1a : strLower f.stem ∉ acc.map Prod.fst := h1
  simp only [loadStep, ht, h3]
  rw [if_neg h1a]

theorem loadFold_ok :
    ∀ (files : List SourceFile) (acc : List (String × RawPost)),
      (files.map fileSlug).Nodup →
      (∀ f ∈ files, fileSlug f ∉ acc.map Prod.fst) →
      (∀ f ∈ files, (metaLookup f.meta "title").isSome ∧
        (metaLookup f.meta "date").isSome) →
      ∃ l, files.foldlM loadStep acc = .ok l ∧
        l.map Prod.fst = acc.map Prod.fst ++ files.map fileSlug := by
  intro files
  induction files with
  | nil =>
      intro acc _ _ _
      exact ⟨acc, rfl, by simp⟩
  | cons f fs ih =>
      intro acc hnd hdisj hmeta
      rw [List.map_cons, List.nodup_cons] at hnd
      obtain ⟨r, hr⟩ := loadStep_ok acc f (hdisj f (by simp))
        (hmeta f (by simp)).1 (hmeta f (by simp)).2
      obtain ⟨l, hl, hlk⟩ := ih (acc ++ [(fileSlug f, r)]) hnd.2
        (fun f' hf' => by
          rw [List.map_append]
          intro hmem
          rcases List.mem_append.mp hmem with hmem | hmem
          · exact hdisj f' (by simp [hf']) hmem
          · simp only [List.map_cons, List.map_nil, List.mem_singleton] at hmem
            exact hnd.1 (hmem ▸ List.mem_map_of_mem fileSlug hf'))
        (fun f' hf' => hmeta f' (by simp [hf']))
      refine ⟨l, ?_, ?_⟩
      · rw [List.foldlM_cons, hr, exceptBindOk]
        exact hl
      · rw [hlk, List.map_append, List.map_cons]
        simp
  
theorem loadFold_inv :
    ∀ (files : List SourceFile) (acc : List (String × RawPost))
      (l : List (String × RawPost)),
      files.foldlM loadStep acc = .ok l →
      l.map Prod.fst = acc.map Prod.fst ++ files.map fileSlug ∧
      (files.map fileSlug).Nodup ∧
      (∀ f ∈ files, fileSlug f ∉ acc.map Prod.fst) ∧
      (∀ f ∈ files, (metaLookup f.meta "title").isSome ∧
        (metaLookup f.meta "date").isSome) := by
  intro files
  induction files with
  | nil =>
      intro acc l h
      have hal : acc = l := by
        rw [List.foldlM_nil] at h
        exact Except.ok.inj h
      subst hal
      exact ⟨by simp, by simp, by simp, by simp⟩
  | cons f fs ih =>
      intro acc l h
      rw [List.foldlM_cons] at h
      by_cases hd : fileSlug f ∈ acc.map Prod.fst
      · rw [loadStep_dup acc f hd, exceptBindErr] at h
        cases h
      · cases ht : metaLookup f.meta "title" with
        | none =>
            rw [loadStep_noTitle acc f hd ht, exceptBindErr] at h
            cases h
        | some tv =>
            cases hdt : metaLookup f.meta "date" with
            | none =>
                rw [loadStep_noDate acc f hd (by rw [ht]; rfl) hdt,
                  exceptBindErr] at h
                cases h
            | some dv =>
                obtain ⟨r, hr⟩ := loadStep_ok acc f hd (by rw [ht]; rfl)
                  (by rw [hdt]; rfl)
                rw [hr, exceptBindOk] at h
                obtain ⟨ih1, ih2, ih3, ih4⟩ := ih _ l h
                have hkeys : (acc ++ [(fileSlug f, r)]).map Prod.fst =
                    acc.map Prod.fst ++ [fileSlug f] := by
                  simp
                refine ⟨?_, ?_, ?_, ?_⟩
                · rw [ih1, hkeys, List.map_cons]
                  simp
                · rw [List.map_cons, List.nodup_cons]
                  refine ⟨?_, ih2⟩
                  intro hmem
                  obtain ⟨f', hf', hslug⟩ := List.mem_map.mp hmem
                  have := ih3 f' hf'
                  rw [hkeys] at this
                  exact this (List.mem_append.mpr (Or.inr (by simp [hslug])))
                · intro f' hf'
                  rcases List.mem_cons.mp hf' with rfl | hf'
                  · exact hd
                  · intro hmem
                    have := ih3 f' hf'
                    rw [hkeys] at this
                    exact this (List.mem_append.mpr (Or.inl hmem))
                · intro f' hf'
                  rcases List.mem_cons.mp hf' with rfl | hf'
                  · exact ⟨by rw [ht]; rfl, by rw [hdt]; rfl⟩
                  · exact ih4 f' hf'

/-- The first post whose `date` string does not parse aborts the fold of
`_sort_posts` with the `ValueError` carrying that raw date string. -/
theorem foldFill_dateError (parse : String → Option Nat) :
    ∀ (posts : List RawPost) (d : Dict),
      "all_posts" ∈ dictKeys d →
      (∀ p ∈ posts, p.category ∈ dictKeys d) →
      (∃ p ∈ posts, parse p.dateString = none) →
      ∃ raw, parse raw = none ∧ (∃ p ∈ posts, p.dateString = raw) ∧
        posts.foldlM (sortPostsStep parse) d = .error (.dateError raw) := by
  intro posts
  induction posts with
  | nil =>
      intro d _ _ hex
      simp at hex
  | cons p ps ih =>
      intro d hap hcat hex
      cases hp : parse p.dateString with
      | none =>
          refine ⟨p.dateString, hp, ⟨p, by simp⟩, ?_⟩
          rw [List.foldlM_cons]
          have hstep : sortPostsStep parse d p =
              .error (.dateError p.dateString) := by
            simp only [sortPostsStep, hp]
          rw [hstep, exceptBindErr]
      | some dt =>
          have hex2 : ∃ q ∈ ps, parse q.dateString = none := by
            rcases hex with ⟨q, hq, hqn⟩
            rcases List.mem_cons.mp hq with rfl | hq
            · rw [hp] at hqn
              cases hqn
            · exact ⟨q, hq, hqn⟩
          obtain ⟨d1, hd1, hk1, _⟩ :=
            dictAppend_char d p.category (p.slug, dt) (hcat p (by simp))
          obtain ⟨d2, hd2, hk2, _⟩ :=
            dictAppend_char d1 "all_posts" (p.slug, dt) (hk1 ▸ hap)
          have hstep : sortPostsStep parse d p = .ok d2 := by
            simp only [sortPostsStep, hp, hd1, hd2]
          obtain ⟨raw, h1, h2, h3⟩ := ih d2
            (by rw [hk2, hk1]; exact hap)
            (fun q hq => by rw [hk2, hk1]; exact hcat q (by simp [hq]))
            hex2
          refine ⟨raw, h1, ?_, ?_⟩
          · rcases h2 with ⟨q, hq, hqr⟩
            exact ⟨q, by simp [hq], hqr⟩
          · rw [List.foldlM_cons, hstep, exceptBindOk]
            exact h3

end SBG

namespace SBG

/-- Every value in the freshly initialized dict is the empty list. -/
theorem initDict_values (cats : List String) :
    ∀ kv ∈ dictSet (cats.foldl (fun d c => dictSet d c []) []) "all_posts" [],
      kv.2 = [] := by
  have hstep : ∀ (d : Dict) (k : String),
      (∀ kv ∈ d, kv.2 = []) → ∀ kv ∈ dictSet d k [], kv.2 = [] := by
    intro d k
    induction d with
    | nil =>
        intro _ kv hkv
        simp only [dictSet, List.mem_singleton] at hkv
        rw [hkv]
    | cons x xs ih =>
        intro h kv hkv
        obtain ⟨k0, v0⟩ := x
        rw [dictSet_cons] at hkv
        by_cases h0 : k0 = k
        · rw [if_pos h0] at hkv
          rcases List.mem_cons.mp hkv with rfl | hkv
          · rfl
          · exact h kv (by simp [hkv])
        · rw [if_neg h0] at hkv
          rcases List.mem_cons.mp hkv with rfl | hkv
          · exact h (k0, v0) (by simp)
          · exact ih (fun kv' hkv' => h kv' (by simp [hkv'])) kv hkv
  have hbase : ∀ (cs : List String) (d : Dict), (∀ kv ∈ d, kv.2 = []) →
      ∀ kv ∈ cs.foldl (fun d c => dictSet d c []) d, kv.2 = [] := by
    intro cs
    induction cs with
    | nil => exact fun d h => h
    | cons c cs ih =>
        intro d h
        rw [List.foldl_cons]
        exact ih _ (hstep d c h)
  exact hstep _ "all_posts" (hbase cats [] (by simp))

/-- With no posts at all, `_sort_posts` (package version) crashes with a
`KeyError` reading `self.sorted_posts["all_posts"]` after the dict
comprehension dropped the empty `all_posts` group. -/
theorem sortPosts_nil (parse : String → Option Nat) (cats : List String) :
    sortPosts parse cats [] = .error .keyError := by
  simp only [sortPosts, List.foldlM_nil]
  rw [show (pure (dictSet (cats.foldl (fun d c => dictSet d c []) [])
      "all_posts" []) : Except SortError Dict) = Except.ok _ from rfl,
    exceptBindOk]
  have hfilter : (dictSet (cats.foldl (fun d c => dictSet d c []) [])
      "all_posts" []).filter (fun kv => kv.2.length ≠ 0) = [] := by
    rw [List.filter_eq_nil_iff]
    intro kv hkv
    rw [initDict_values cats kv hkv]
    simp
  have hnc : cats.filter (fun c =>
      ((dictLookup (dictSet (cats.foldl (fun d c => dictSet d c [])
        []) "all_posts" []) c).getD []).length ≠ 0) = [] := by
    rw [List.filter_eq_nil_iff]
    intro c hc
    rw [initDict_lookup]
    by_cases h : c = "all_posts" ∨ c ∈ cats <;> simp [h]
  rw [hnc, hfilter, List.foldlM_nil]
  rw [show (pure ([] : Dict) : Except SortError Dict) = Except.ok [] from rfl,
    exceptBindOk]
  rfl

/-- A successful `_sort_posts` run parsed every post date. -/
theorem sortPosts_parse_ok (parse : String → Option Nat)
    (categories : List String) (posts : List RawPost)
    (hcat : ∀ p ∈ posts, p.category ∈ categories)
    (res : List String × Dict)
    (hok : sortPosts parse categories posts = .ok res) :
    ∀ p ∈ posts, (parse p.dateString).isSome := by
  by_contra hnp
  push_neg at hnp
  obtain ⟨p, hp, hps⟩ := hnp
  have hnone : parse p.dateString = none :=
    Option.not_isSome_iff_eq_none.mp hps
  obtain ⟨raw, _, _, hfold⟩ := foldFill_dateError parse posts
    (dictSet (categories.foldl (fun d c => dictSet d c []) []) "all_posts" [])
    ((initDict_keys_mem categories "all_posts").mpr (Or.inl rfl))
    (fun q hq => (initDict_keys_mem categories q.category).mpr
      (Or.inr (hcat q hq)))
    ⟨p, hp, hnone⟩
  have : sortPosts parse categories posts = .error (.dateError raw) := by
    simp only [sortPosts]
    rw [hfold, exceptBindErr]
  rw [hok] at this
  cases this

/-- A successful `_sort_posts` run had at least one post. -/
theorem sortPosts_posts_ne (parse : String → Option Nat)
    (categories : List String) (posts : List RawPost)
    (res : List String × Dict)
    (hok : sortPosts parse categories posts = .ok res) : posts ≠ [] := by
  intro h
  subst h
  rw [sortPosts_nil] at hok
  cases hok

end SBG

namespace SBG

/-! ### Claims -/

/-- C3, counterexample: as stated, the claim requires the query on an
empty group to "return an empty sequence without failing, for every
count and offset"; but `assert number != 0` runs before the empty-group
check, so count `0` on an empty group is a precondition violation, not
an empty result. -/
theorem claim3_counterexample :
    getMostRecentPostTitles ["c"] [("c", [])] "c" 0 0 =
      .error .assertFail ∧
    getMostRecentPostTitles ["c"] [("c", [])] "c" 0 0 ≠ .ok [] := by
  decide

/-- C3, amended: `get_most_recent_post_titles` fails with a
precondition violation when called with count zero (even on an empty
group), and when called on a non-empty group with `offset >= len`; on
an empty group with a *nonzero* count it returns the empty list for
every offset. -/
theorem claim3_amended (categories : List String) (sortedPosts : Dict)
    (category : String) (n off : Nat) (group : Group)
    (hmem : category ∈ categories ∨ category = "all_posts")
    (hlk : dictLookup sortedPosts category = some group) :
    getMostRecentPostTitles categories sortedPosts category 0 off =
      .error .assertFail ∧
    (group ≠ [] → group.length ≤ off →
      getMostRecentPostTitles categories sortedPosts category n off =
        .error .assertFail) ∧
    (n ≠ 0 → group = [] →
      getMostRecentPostTitles categories sortedPosts category n off =
        .ok []) := by
  refine ⟨?_, ?_, ?_⟩
  · rw [getMostRecentPostTitles, if_pos rfl]
  · intro hne hoff
    by_cases hn : n = 0
    · subst hn
      rw [getMostRecentPostTitles, if_pos rfl]
    · exact getMostRecent_offsetFail categories sortedPosts category n off
        group hn hmem hlk hne hoff
  · intro hn hnil
    subst hnil
    exact getMostRecent_empty categories sortedPosts category n off hn hmem hlk

theorem claim3_amended_witness :
    getMostRecentPostTitles ["c"] [("c", [])] "c" 0 5 =
      .error .assertFail ∧
    getMostRecentPostTitles ["c"] [("c", [("a", 1)])] "c" 3 7 =
      .error .assertFail ∧
    getMostRecentPostTitles ["c"] [("c", [])] "c" 3 7 = .ok [] := by
  obtain ⟨h1, _, h3⟩ := claim3_amended ["c"] [("c", [])] "c" 3 5
    [] (Or.inl (by decide)) (by decide)
  obtain ⟨_, h2, _⟩ := claim3_amended ["c"] [("c", [("a", 1)])] "c" 3 7
    [("a", 1)] (Or.inl (by decide)) (by decide)
  refine ⟨?_, h2 (by decide) (by decide), ?_⟩
  · obtain ⟨h1b, _, _⟩ := claim3_amended ["c"] [("c", [])] "c" 3 7
      [] (Or.inl (by decide)) (by decide)
    exact h1b
  · obtain ⟨_, _, h3b⟩ := claim3_amended ["c"] [("c", [])] "c" 3 7
      [] (Or.inl (by decide)) (by decide)
    exact h3b (by decide) rfl

/-- C4: `_get_page_name` navigation links: page 0 has no previous page;
page 1's previous is `index.html` (page 0's name); page `k > 1`'s
previous is page `k-1`'s name; the last page has no next; any other
page `k`'s next is page `k+1`'s name; and for any interior page `k`,
the page named by `next(page k)` has previous equal to page `k`'s own
name. -/
theorem claim4_navigation (P : Nat) (hP : 1 ≤ P) :
    (getPageName 0 P).2.1 = none ∧
    (getPageName 1 P).2.1 = some (getPageName 0 P).1 ∧
    (∀ k, 1 < k → (getPageName k P).2.1 = some (getPageName (k - 1) P).1) ∧
    (getPageName (P - 1) P).2.2 = none ∧
    (∀ k, k < P - 1 → (getPageName k P).2.2 = some (getPageName (k + 1) P).1) ∧
    (∀ k, k < P - 1 →
      (getPageName (k + 1) P).2.1 = some (getPageName k P).1) := by
  refine ⟨rfl, rfl, ?_, ?_, ?_, ?_⟩
  · intro k hk
    simp only [getPageName]
    rw [if_neg (show ¬(k = 0) by omega), if_neg (show ¬(k = 1) by omega),
      if_neg (show ¬(k - 1 = 0) by omega)]
  · simp [getPageName]
  · intro k hk
    simp only [getPageName]
    rw [if_neg (show ¬(k = P - 1) by omega),
      if_neg (show ¬(k + 1 = 0) by omega)]
  · intro k hk
    simp only [getPageName]
    by_cases hk0 : k = 0
    · subst hk0
      rw [if_neg (show ¬(0 + 1 = 0) by omega), if_pos rfl, if_pos rfl]
    · rw [if_neg (show ¬(k + 1 = 0) by omega),
        if_neg (show ¬(k + 1 = 1) by omega),
        if_neg (show ¬(k = 0) from hk0)]
      rw [show k + 1 - 1 = k from rfl]

theorem claim4_navigation_witness :
    (getPageName 0 3).2.1 = none ∧
    (getPageName 1 3).2.1 = some (getPageName 0 3).1 ∧
    (getPageName 2 3).2.1 = some (getPageName 1 3).1 ∧
    (getPageName 2 3).2.2 = none ∧
    (getPageName 0 3).2.2 = some (getPageName 1 3).1 ∧
    (getPageName 1 3).2.1 = some (getPageName 0 3).1 := by
  obtain ⟨h1, h2, h3, h4, h5, h6⟩ := claim4_navigation 3 (by decide)
  exact ⟨h1, h2, h3 2 (by decide), h4, h5 0 (by decide), h6 0 (by decide)⟩

/-- C8, counterexample: for the file `content/cat/MyPost/MyPost.md`
(slug `mypost`), the claim's conditions both fail — the parent
directory's name `MyPost` does not *equal* the slug, and no sibling
directory named `mypost` exists — so the claim says "no assets path";
the code, comparing the parent name lower-cased, takes the parent. -/
theorem claim8_counterexample :
    assetPath (fun d => decide (d = ["content", "cat", "MyPost"]))
        ["content", "cat"] ["content", "cat", "MyPost"] "MyPost" =
      some ["content", "cat", "MyPost"] ∧
    assetPathClaimed (fun d => decide (d = ["content", "cat", "MyPost"]))
        ["content", "cat", "MyPost"] "MyPost" = none ∧
    assetPath (fun d => decide (d = ["content", "cat", "MyPost"]))
        ["content", "cat"] ["content", "cat", "MyPost"] "MyPost" ≠
      assetPathClaimed (fun d => decide (d = ["content", "cat", "MyPost"]))
        ["content", "cat", "MyPost"] "MyPost" := by
  refine ⟨by decide, by decide, by decide⟩

/-- C8, amended: if the parent directory's name *lower-cased* equals
the slug, the parent is the assets path; otherwise, if a directory
named the slug exists directly under the *category* directory (not
necessarily a sibling of the file), that directory is the assets path;
otherwise there is none. -/
theorem claim8_amended (isdir : List String → Bool)
    (categoryDirectory parent : List String) (stem : String) :
    (strLower (lastName parent) = strLower stem →
      assetPath isdir categoryDirectory parent stem = some parent) ∧
    (strLower (lastName parent) ≠ strLower stem →
      isdir (categoryDirectory ++ [strLower stem]) = true →
      assetPath isdir categoryDirectory parent stem =
        some (categoryDirectory ++ [strLower stem])) ∧
    (strLower (lastName parent) ≠ strLower stem →
      isdir (categoryDirectory ++ [strLower stem]) = false →
      assetPath isdir categoryDirectory parent stem = none) := by
  refine ⟨?_, ?_, ?_⟩
  · intro h1
    simp only [assetPath]
    rw [if_pos h1]
  · intro h1 h2
    simp only [assetPath]
    rw [if_neg h1, if_pos h2]
  · intro h1 h2
    simp only [assetPath]
    rw [if_neg h1, if_neg (by simp [h2])]

theorem claim8_amended_witness :
    assetPath (fun _ => false) ["content", "cat"]
        ["content", "cat", "MyPost"] "MYPOST" =
      some ["content", "cat", "MyPost"] ∧
    assetPath (fun _ => true) ["content", "cat"]
        ["content", "cat", "sub"] "MyPost" =
      some ["content", "cat", "mypost"] ∧
    assetPath (fun _ => false) ["content", "cat"]
        ["content", "cat", "sub"] "MyPost" = none := by
  refine ⟨?_, ?_, ?_⟩
  · exact (claim8_amended (fun _ => false) ["content", "cat"]
      ["content", "cat", "MyPost"] "MYPOST").1 (by decide)
  · exact (claim8_amended (fun _ => true) ["content", "cat"]
      ["content", "cat", "sub"] "MyPost").2.1 (by decide) rfl
  · exact (claim8_amended (fun _ => false) ["content", "cat"]
      ["content", "cat", "sub"] "MyPost").2.2 (by decide) rfl

end SBG

namespace SBG

/-- C1: for a group of `N` items and page size `S > 0`,
`_generate_category_pages` renders exactly `⌈N/S⌉` pages; page `k`'s
window is `items[k*S : k*S+S]` (clamped at `N`); the windows
concatenate, in page order, to the whole sorted sequence; and every
page but the last holds exactly `S` items. -/
theorem claim1_pagination (categories : List String) (sortedPosts : Dict)
    (category : String) (group : Group) (s : Nat)
    (hs : 0 < s) (hmem : category ∈ categories ∨ category = "all_posts")
    (hlk : dictLookup sortedPosts category = some group) :
    generateCategoryPages categories sortedPosts s category =
      .ok ((List.range ((group.length + s - 1) / s)).map
        (fun k => ((group.map Prod.fst).drop (k * s)).take s)) ∧
    numberOfPages group.length s = (group.length + s - 1) / s ∧
    ((List.range ((group.length + s - 1) / s)).map
        (fun k => ((group.map Prod.fst).drop (k * s)).take s)).length =
      (group.length + s - 1) / s ∧
    ((List.range ((group.length + s - 1) / s)).map
        (fun k => ((group.map Prod.fst).drop (k * s)).take s)).flatten =
      group.map Prod.fst ∧
    (∀ k, k + 1 < (group.length + s - 1) / s →
      (((group.map Prod.fst).drop (k * s)).take s).length = s) := by
  have hceil := numberOfPages_eq_ceil group.length s hs
  have hlen : (group.map Prod.fst).length = group.length := List.length_map _ _
  refine ⟨?_, hceil, by simp, ?_, ?_⟩
  · simp only [generateCategoryPages, hlk, hceil]
    apply forEachPage_ok
    intro k hk
    rw [List.mem_range] at hk
    exact getMostRecent_eval categories sortedPosts category s (k * s) group
      (by omega) hmem hlk (page_offset_lt group.length s k hs hk)
  · apply join_chunks
    rw [hlen]
    exact le_pages_mul group.length s hs
  · intro k hk
    have hfull := page_full_le group.length s k hs hk
    rw [List.length_take, List.length_drop, hlen]
    obtain ⟨a, ha⟩ : ∃ a, k * s = a := ⟨_, rfl⟩
    rw [ha] at hfull
    rw [ha]
    omega

theorem claim1_pagination_witness :
    generateCategoryPages ["c"] [("c", [("a", 3), ("b", 2), ("d", 1)])] 2 "c" =
      .ok [["a", "b"], ["d"]] ∧
    numberOfPages 3 2 = 2 := by
  have h := claim1_pagination ["c"] [("c", [("a", 3), ("b", 2), ("d", 1)])]
    "c" [("a", 3), ("b", 2), ("d", 1)] 2 (by decide)
    (Or.inl (by decide)) (by decide)
  exact ⟨h.1.trans (by decide), h.2.1.trans (by decide)⟩

/-- C5: `_get_posts` aborts on a duplicate derived slug, a missing
`title` key, or a missing `date` key — and only on those; hence a
successfully loaded collection lists every file's slug with no
duplicates, and a tree with a slug collision (or a missing required
key) never loads successfully. -/
theorem claim5_loader_fatal (files : List SourceFile) :
    (∀ l, loadPosts files = .ok l →
      (l.map Prod.fst).Nodup ∧ l.map Prod.fst = files.map fileSlug) ∧
    ((∃ l, loadPosts files = .ok l) ↔
      ((files.map fileSlug).Nodup ∧
        ∀ f ∈ files, (metaLookup f.meta "title").isSome ∧
          (metaLookup f.meta "date").isSome)) := by
  constructor
  · intro l hok
    obtain ⟨h1, h2, _, _⟩ := loadFold_inv files [] l hok
    rw [List.map_nil, List.nil_append] at h1
    exact ⟨h1 ▸ h2, h1⟩
  · constructor
    · rintro ⟨l, hok⟩
      obtain ⟨_, h2, _, h4⟩ := loadFold_inv files [] l hok
      exact ⟨h2, h4⟩
    · rintro ⟨hnd, hmeta⟩
      obtain ⟨l, hok, _⟩ := loadFold_ok files [] hnd (by simp) hmeta
      exact ⟨l, hok⟩

theorem claim5_loader_fatal_witness :
    (∃ l, loadPosts
      [⟨"A", [("title", ["t1"]), ("date", ["2024/01/01"])], "cat"⟩,
       ⟨"b", [("title", ["t2"]), ("date", ["2024/01/02"])], "cat"⟩] =
        .ok l) ∧
    ¬(∃ l, loadPosts
      [⟨"A", [("title", ["t1"]), ("date", ["2024/01/01"])], "cat"⟩,
       ⟨"a", [("title", ["t2"]), ("date", ["2024/01/02"])], "cat"⟩] =
        .ok l) := by
  constructor
  · exact (claim5_loader_fatal _).2.mpr (by decide)
  · intro hok
    have := (claim5_loader_fatal _).2.mp hok
    revert this
    decide

/-- C6, counterexample: the abort on an unparsable date is the
uncaught `strptime` `ValueError`, whose report carries the raw date
string but nothing derived from the document: two runs whose only
difference is the offending document's slug produce identical errors,
so the failure does not identify the slug. -/
theorem claim6_counterexample :
    sortPosts (fun _ => none) ["c"] [⟨"alpha", "c", "2024-13-99"⟩] =
      sortPosts (fun _ => none) ["c"] [⟨"beta", "c", "2024-13-99"⟩] ∧
    sortPosts (fun _ => none) ["c"] [⟨"alpha", "c", "2024-13-99"⟩] =
      .error (.dateError "2024-13-99") := by
  refine ⟨by decide, by decide⟩

/-- C6, amended: during index building every date string is parsed
against the single configured format, and if any document's date does
not parse the run aborts; the abort (an uncaught `ValueError` from
`strptime`) reports the offending raw date string — not the slug. -/
theorem claim6_amended (parse : String → Option Nat)
    (categories : List String) (posts : List RawPost)
    (hcat : ∀ p ∈ posts, p.category ∈ categories)
    (hfail : ∃ p ∈ posts, parse p.dateString = none) :
    ∃ raw, parse raw = none ∧ (∃ p ∈ posts, p.dateString = raw) ∧
      sortPosts parse categories posts = .error (.dateError raw) := by
  obtain ⟨raw, h1, h2, hfold⟩ := foldFill_dateError parse posts
    (dictSet (categories.foldl (fun d c => dictSet d c []) []) "all_posts" [])
    ((initDict_keys_mem categories "all_posts").mpr (Or.inl rfl))
    (fun q hq => (initDict_keys_mem categories q.category).mpr
      (Or.inr (hcat q hq)))
    hfail
  refine ⟨raw, h1, h2, ?_⟩
  simp only [sortPosts]
  rw [hfold, exceptBindErr]

theorem claim6_amended_witness :
    ∃ raw, (fun st => if st = "bad" then none else some 0) raw = none ∧
      (∃ p ∈ [(⟨"a", "c", "bad"⟩ : RawPost)], p.dateString = raw) ∧
      sortPosts (fun st => if st = "bad" then none else some 0) ["c"]
        [⟨"a", "c", "bad"⟩] = .error (.dateError raw) :=
  claim6_amended (fun st => if st = "bad" then none else some 0) ["c"]
    [⟨"a", "c", "bad"⟩] (by decide)
    ⟨⟨"a", "c", "bad"⟩, by decide, by decide⟩

end SBG

namespace SBG

/-- C2: after a successful `_sort_posts`, every group in
`self.sorted_posts` (each retained category and `all_posts`) is sorted
by parsed date descending — adjacent entries satisfy
`date[i] >= date[i+1]` — and the sort is stable: the entries holding
any fixed date appear exactly as in the group's discovery-order
contents. -/
theorem claim2_sort_stable (parse : String → Option Nat)
    (categories : List String) (posts : List RawPost)
    (hnd : categories.Nodup) (hap : "all_posts" ∉ categories)
    (hcat : ∀ p ∈ posts, p.category ∈ categories)
    (newCats : List String) (dict : Dict)
    (hok : sortPosts parse categories posts = .ok (newCats, dict))
    (k : String) (g : Group) (hg : dictLookup dict k = some g) :
    List.Chain' (fun a b : Entry => b.2 ≤ a.2) g ∧
    ∀ d : Nat, g.filter (fun e => e.2 = d) =
      (if k = "all_posts" then allEntries parse posts
       else grouped parse posts k).filter (fun e => e.2 = d) := by
  have hparse := sortPosts_parse_ok parse categories posts hcat _ hok
  have hpne := sortPosts_posts_ne parse categories posts _ hok
  obtain ⟨dict', hok', hlk⟩ :=
    sortPosts_char parse categories posts hnd hap hcat hparse hpne
  rw [hok] at hok'
  have hdict : dict = dict' := congrArg Prod.snd (Except.ok.inj hok')
  rw [← hdict] at hlk
  have hlkk := hlk k
  rw [hg] at hlkk
  have hchain : ∀ x : Group, List.Chain' (fun a b : Entry => b.2 ≤ a.2)
      (sortDesc x) := by
    intro x
    exact (sortDesc_sorted x).chain'
  by_cases h1 : k = "all_posts"
  · rw [if_pos h1] at hlkk
    have hgv : g = sortDesc (allEntries parse posts) := Option.some.inj hlkk
    subst hgv
    refine ⟨hchain _, ?_⟩
    intro d
    rw [if_pos h1]
    exact sortDesc_filter_date _ d
  · rw [if_neg h1] at hlkk
    by_cases h2 : k ∈ categories ∧ grouped parse posts k ≠ []
    · rw [if_pos h2] at hlkk
      have hgv : g = sortDesc (grouped parse posts k) := Option.some.inj hlkk
      subst hgv
      refine ⟨hchain _, ?_⟩
      intro d
      rw [if_neg h1]
      exact sortDesc_filter_date _ d
    · rw [if_neg h2] at hlkk
      cases hlkk

theorem claim2_sort_stable_witness :
    List.Chain' (fun a b : Entry => b.2 ≤ a.2)
      [("b", 7), ("a", 5), ("c", 5)] ∧
    [("b", 7), ("a", 5), ("c", 5)].filter
        (fun e : Entry => e.2 = 5) =
      (allEntries (fun st => if st = "7" then some 7 else some 5)
        [⟨"a", "x", "5"⟩, ⟨"b", "x", "7"⟩, ⟨"c", "x", "5"⟩]).filter
        (fun e : Entry => e.2 = 5) := by
  have h := claim2_sort_stable (fun st => if st = "7" then some 7 else some 5)
    ["x"]
    [⟨"a", "x", "5"⟩, ⟨"b", "x", "7"⟩, ⟨"c", "x", "5"⟩]
    (by decide) (by decide) (by decide)
    ["x"] [("x", [("b", 7), ("a", 5), ("c", 5)]),
      ("all_posts", [("b", 7), ("a", 5), ("c", 5)])]
    (by decide) "all_posts" [("b", 7), ("a", 5), ("c", 5)] (by decide)
  refine ⟨h.1, ?_⟩
  have h2 := h.2 5
  rw [if_pos rfl] at h2
  exact h2

/-- C7, counterexample: the claim fails when a content directory is
itself named `all_posts`.  With an empty content category `all_posts`
beside `tech` holding one post, `self.sorted_posts["all_posts"] = list()`
aliases the category's group with the synthetic global group, so the
zero-document category `all_posts` ends up with a non-empty group, stays
in the narrowed navigation list, and `_generate_category_pages` renders
a page for it. -/
theorem claim7_counterexample :
    sortPosts (fun _ => some 5) ["tech", "all_posts"] [⟨"p", "tech", "5"⟩] =
      .ok (["tech", "all_posts"],
        [("tech", [("p", 5)]), ("all_posts", [("p", 5)])]) ∧
    grouped (fun _ => some 5) [⟨"p", "tech", "5"⟩] "all_posts" = [] ∧
    "all_posts" ∈ (["tech", "all_posts"] : List String) ∧
    generateCategoryPages ["tech", "all_posts"]
        [("tech", [("p", 5)]), ("all_posts", [("p", 5)])] 10 "all_posts" =
      .ok [["p"]] := by
  refine ⟨by decide, by decide, by decide, by decide⟩

/-- C7, amended: provided no content category is itself named
`all_posts`, after a successful `_sort_posts` the narrowed category
list contains exactly the categories with at least one post; every
retained category's group lookup succeeds and is non-empty; and a
category whose group came out empty is gone from both the navigation
list and the group mapping (so no downstream stage iterates or renders
it). -/
theorem claim7_category_pruning (parse : String → Option Nat)
    (categories : List String) (posts : List RawPost)
    (hnd : categories.Nodup) (hap : "all_posts" ∉ categories)
    (hcat : ∀ p ∈ posts, p.category ∈ categories)
    (newCats : List String) (dict : Dict)
    (hok : sortPosts parse categories posts = .ok (newCats, dict)) :
    (∀ c, c ∈ newCats ↔ (c ∈ categories ∧ grouped parse posts c ≠ [])) ∧
    (∀ c ∈ newCats, ∃ g, dictLookup dict c = some g ∧ g ≠ []) ∧
    (∀ c, c ∈ categories → grouped parse posts c = [] →
      c ∉ newCats ∧ dictLookup dict c = none) := by
  have hparse := sortPosts_parse_ok parse categories posts hcat _ hok
  have hpne := sortPosts_posts_ne parse categories posts _ hok
  obtain ⟨dict', hok', hlk⟩ :=
    sortPosts_char parse categories posts hnd hap hcat hparse hpne
  rw [hok] at hok'
  have heq := Except.ok.inj hok'
  have hdict : dict = dict' := congrArg Prod.snd heq
  have hcats : newCats = categories.filter
      (fun c => grouped parse posts c ≠ []) := congrArg Prod.fst heq
  rw [← hdict] at hlk
  have hmem : ∀ c, c ∈ newCats ↔
      (c ∈ categories ∧ grouped parse posts c ≠ []) := by
    intro c
    rw [hcats, List.mem_filter]
    exact and_congr_right (fun _ => by simp)
  refine ⟨hmem, ?_, ?_⟩
  · intro c hc
    obtain ⟨hc1, hc2⟩ := (hmem c).mp hc
    have hcap : ¬(c = "all_posts") := fun hh => hap (hh ▸ hc1)
    refine ⟨sortDesc (grouped parse posts c), ?_, ?_⟩
    · rw [hlk c, if_neg hcap, if_pos ⟨hc1, hc2⟩]
    · intro hnil
      apply hc2
      have := sortDesc_length (grouped parse posts c)
      rw [hnil] at this
      exact List.eq_nil_of_length_eq_zero this.symm
  · intro c hc1 hc2
    have hcap : ¬(c = "all_posts") := fun hh => hap (hh ▸ hc1)
    refine ⟨fun hc => ((hmem c).mp hc).2 hc2, ?_⟩
    rw [hlk c, if_neg hcap, if_neg (fun hh => hh.2 hc2)]

theorem claim7_category_pruning_witness :
    ("empty" ∉ (["x"] : List String) ∧
      dictLookup [("x", [("a", 5)]), ("all_posts", [("a", 5)])] "empty" =
        none) ∧
    ∃ g, dictLookup [("x", [("a", 5)]), ("all_posts", [("a", 5)])] "x" =
      some g ∧ g ≠ [] := by
  have h := claim7_category_pruning (fun _ => some 5) ["x", "empty"]
    [⟨"a", "x", "5"⟩] (by decide) (by decide) (by decide)
    ["x"] [("x", [("a", 5)]), ("all_posts", [("a", 5)])] (by decide)
  exact ⟨h.2.2 "empty" (by decide) (by decide), h.2.1 "x" (by decide)⟩

end SBG

namespace SBG

/-! ### Multiplicity lemmas for the `all_posts` aggregate -/

theorem sum_map_add_single (l : List String) (f : String → Nat) (a : String)
    (w : Nat) (hnd : l.Nodup) (ha : a ∈ l) :
    (l.map (fun c => f c + if c = a then w else 0)).sum = (l.map f).sum + w := by
  induction l with
  | nil => cases ha
  | cons x xs ih =>
      rw [List.nodup_cons] at hnd
      rcases List.mem_cons.mp ha with hax | ha2
      · simp only [List.map_cons, List.sum_cons, if_pos hax.symm]
        have hrest : xs.map (fun c => f c + if c = a then w else 0) =
            xs.map f := by
          apply List.map_congr_left
          intro c hc
          rw [if_neg (fun hh : c = a => hnd.1 ((hh.trans hax) ▸ hc)),
            Nat.add_zero]
        rw [hrest]
        omega
      · have hxa : ¬(x = a) := fun hh => hnd.1 (hh ▸ ha2)
        simp only [List.map_cons, List.sum_cons, if_neg hxa, Nat.add_zero]
        rw [ih hnd.2 ha2]
        omega

theorem sum_map_filter_support (l : List String) (f : String → Nat)
    (pr : String → Bool) (h : ∀ c ∈ l, pr c = false → f c = 0) :
    ((l.filter pr).map f).sum = (l.map f).sum := by
  induction l with
  | nil => rfl
  | cons x xs ih =>
      rw [List.filter_cons]
      by_cases hx : pr x = true
      · rw [if_pos hx]
        simp only [List.map_cons, List.sum_cons]
        rw [ih (fun c hc => h c (by simp [hc]))]
      · have hx2 : pr x = false := by
          revert hx
          cases pr x <;> simp
        rw [if_neg (by simp [hx2])]
        simp only [List.map_cons, List.sum_cons]
        rw [ih (fun c hc => h c (by simp [hc])), h x (by simp) hx2]
        omega

theorem countP_allEntries_sum (parse : String → Option Nat)
    (posts : List RawPost) (cats : List String) (q : Entry → Bool)
    (hnd : cats.Nodup) (hcat : ∀ p ∈ posts, p.category ∈ cats) :
    (cats.map (fun c => (grouped parse posts c).countP q)).sum =
      (allEntries parse posts).countP q := by
  induction posts with
  | nil =>
      simp only [grouped, allEntries, List.filter_nil, List.map_nil,
        List.countP_nil]
      exact List.sum_eq_zero (by simp)
  | cons p ps ih =>
      have hsplit : ∀ c, (grouped parse (p :: ps) c).countP q =
          (grouped parse ps c).countP q +
            (if c = p.category then (if q (postEntry parse p) then 1 else 0)
             else 0) := by
        intro c
        by_cases hc : p.category = c
        · have hgc : grouped parse (p :: ps) c =
              postEntry parse p :: grouped parse ps c := by
            rw [grouped, grouped, List.filter_cons, if_pos (decide_eq_true hc),
              List.map_cons]
          rw [hgc, List.countP_cons, if_pos hc.symm]
        · have hgc : grouped parse (p :: ps) c = grouped parse ps c := by
            rw [grouped, grouped, List.filter_cons,
              if_neg (by simp [hc])]
          rw [hgc, if_neg (fun hh => hc hh.symm), Nat.add_zero]
      have hmc : cats.map (fun c => (grouped parse (p :: ps) c).countP q) =
          cats.map (fun c => (grouped parse ps c).countP q +
            (if c = p.category then (if q (postEntry parse p) then 1 else 0)
             else 0)) :=
        List.map_congr_left (fun c _ => hsplit c)
      rw [hmc, sum_map_add_single cats _ p.category _ hnd (hcat p (by simp)),
        ih (fun r hr => hcat r (by simp [hr]))]
      show _ = (postEntry parse p :: allEntries parse ps).countP q
      rw [List.countP_cons]

theorem countP_eq_one_of_nodup_mem {l : List Entry} {x : Entry}
    (hnd : l.Nodup) (hx : x ∈ l) : l.countP (fun e => e = x) = 1 := by
  induction l with
  | nil => cases hx
  | cons y ys ih =>
      rw [List.nodup_cons] at hnd
      rw [List.countP_cons]
      rcases List.mem_cons.mp hx with hxy | hx2
      · have hzero : ys.countP (fun e => e = x) = 0 :=
          List.countP_eq_zero.mpr (fun a2 ha2 => by
            simp only [decide_eq_true_eq]
            intro hh
            exact hnd.1 ((hh.trans hxy) ▸ ha2))
        rw [hzero]
        simp [hxy.symm]
      · have hyx : ¬(y = x) := fun hh => hnd.1 (hh.symm ▸ hx2)
        rw [ih hnd.2 hx2]
        simp [hyx]

theorem filter_eq_singleton_of_nodup {l : List String} {a : String}
    (hnd : l.Nodup) (ha : a ∈ l) : l.filter (fun c => c = a) = [a] := by
  induction l with
  | nil => cases ha
  | cons x xs ih =>
      rw [List.nodup_cons] at hnd
      rw [List.filter_cons]
      rcases List.mem_cons.mp ha with hax | ha2
      · rw [if_pos (by simp [hax.symm])]
        have hrest : xs.filter (fun c => c = a) = [] :=
          List.filter_eq_nil_iff.mpr (fun c hc => by
            simp only [decide_eq_true_eq]
            intro hh
            exact hnd.1 ((hh.trans hax) ▸ hc))
        rw [hrest, hax]
      · have hxa : ¬(x = a) := fun hh => hnd.1 (hh ▸ ha2)
        rw [if_neg (by simp [hxa]), ih hnd.2 ha2]

theorem mem_grouped_iff (parse : String → Option Nat)
    (posts : List RawPost) (hslugs : (posts.map RawPost.slug).Nodup)
    (p : RawPost) (hp : p ∈ posts) (c : String) :
    postEntry parse p ∈ grouped parse posts c ↔ c = p.category := by
  constructor
  · intro hmem
    obtain ⟨q, hq, hqe⟩ := List.mem_map.mp hmem
    obtain ⟨hq1, hq2⟩ := List.mem_filter.mp hq
    have hslug : q.slug = p.slug := congrArg Prod.fst hqe
    have hqp : q = p := List.inj_on_of_nodup_map hslugs hq1 hp hslug
    subst hqp
    exact (of_decide_eq_true hq2).symm
  · intro hc
    exact List.mem_map.mpr ⟨p,
      List.mem_filter.mpr ⟨hp, decide_eq_true hc.symm⟩, rfl⟩

theorem allEntries_nodup (parse : String → Option Nat)
    (posts : List RawPost) (hslugs : (posts.map RawPost.slug).Nodup) :
    (allEntries parse posts).Nodup := by
  apply List.Nodup.of_map Prod.fst
  have hmapfst : (allEntries parse posts).map Prod.fst =
      posts.map RawPost.slug := by
    rw [allEntries, List.map_map]
    exact List.map_congr_left (fun p _ => rfl)
  rw [hmapfst]
  exact hslugs

end SBG

namespace SBG

/-- C10: after a successful `_sort_posts` with no content category
named `all_posts`, the synthetic `all_posts` group holds exactly the
union of the per-category groups — every `(slug, date)` entry has the
same multiplicity in `all_posts` as summed over the retained category
groups, each post's entry appears exactly once in `all_posts` and in
exactly one retained category group — and `all_posts` is not in the
navigation category list. -/
theorem claim10_all_posts (parse : String → Option Nat)
    (categories : List String) (posts : List RawPost)
    (hnd : categories.Nodup) (hap : "all_posts" ∉ categories)
    (hcat : ∀ p ∈ posts, p.category ∈ categories)
    (hslugs : (posts.map RawPost.slug).Nodup)
    (newCats : List String) (dict : Dict)
    (hok : sortPosts parse categories posts = .ok (newCats, dict)) :
    "all_posts" ∉ newCats ∧
    ∃ ag, dictLookup dict "all_posts" = some ag ∧
      (∀ x : Entry, ag.countP (fun e => e = x) =
        (newCats.map (fun c =>
          ((dictLookup dict c).getD []).countP (fun e => e = x))).sum) ∧
      (∀ p ∈ posts, ag.countP (fun e => e = postEntry parse p) = 1) ∧
      (∀ p ∈ posts, (newCats.filter
          (fun c => postEntry parse p ∈ (dictLookup dict c).getD [])).length =
        1) := by
  have hparse := sortPosts_parse_ok parse categories posts hcat _ hok
  have hpne := sortPosts_posts_ne parse categories posts _ hok
  obtain ⟨dict', hok', hlk⟩ :=
    sortPosts_char parse categories posts hnd hap hcat hparse hpne
  rw [hok] at hok'
  have heq := Except.ok.inj hok'
  have hdict : dict = dict' := congrArg Prod.snd heq
  have hcats : newCats = categories.filter
      (fun c => grouped parse posts c ≠ []) := congrArg Prod.fst heq
  rw [← hdict] at hlk
  have hncnd : newCats.Nodup := by
    rw [hcats]
    exact hnd.filter _
  have hmemnc : ∀ c, c ∈ newCats ↔
      (c ∈ categories ∧ grouped parse posts c ≠ []) := by
    intro c
    rw [hcats, List.mem_filter]
    exact and_congr_right (fun _ => by simp)
  have hlknc : ∀ c ∈ newCats,
      dictLookup dict c = some (sortDesc (grouped parse posts c)) := by
    intro c hc
    obtain ⟨hc1, hc2⟩ := (hmemnc c).mp hc
    rw [hlk c, if_neg (fun hh : c = "all_posts" => hap (hh ▸ hc1)),
      if_pos ⟨hc1, hc2⟩]
  have hapnc : "all_posts" ∉ newCats :=
    fun hmem => hap ((hmemnc "all_posts").mp hmem).1
  refine ⟨hapnc, sortDesc (allEntries parse posts), ?_, ?_, ?_, ?_⟩
  · rw [hlk "all_posts", if_pos rfl]
  · intro x
    rw [sortDesc_countP]
    have hmapc : newCats.map (fun c =>
        ((dictLookup dict c).getD []).countP (fun e => e = x)) =
        newCats.map (fun c =>
          (grouped parse posts c).countP (fun e => e = x)) := by
      apply List.map_congr_left
      intro c hc
      rw [hlknc c hc, Option.getD_some, sortDesc_countP]
    rw [hmapc, hcats,
      sum_map_filter_support categories _ _ (fun c _ hfalse => by
        have : grouped parse posts c = [] := by
          by_contra hne2
          rw [decide_eq_true hne2] at hfalse
          cases hfalse
        rw [this, List.countP_nil]),
      countP_allEntries_sum parse posts categories _ hnd hcat]
  · intro p hp
    rw [sortDesc_countP]
    exact countP_eq_one_of_nodup_mem (allEntries_nodup parse posts hslugs)
      (List.mem_map_of_mem _ hp)
  · intro p hp
    have hfc : newCats.filter
        (fun c => postEntry parse p ∈ (dictLookup dict c).getD []) =
        newCats.filter (fun c => c = p.category) := by
      apply List.filter_congr
      intro c hc
      apply decide_eq_decide.mpr
      rw [hlknc c hc, Option.getD_some, (sortDesc_perm _).mem_iff]
      exact mem_grouped_iff parse posts hslugs p hp c
    have hpcmem : p.category ∈ newCats := by
      rw [hmemnc p.category]
      refine ⟨hcat p hp, ?_⟩
      exact List.ne_nil_of_mem
        ((mem_grouped_iff parse posts hslugs p hp p.category).mpr rfl)
    rw [hfc, filter_eq_singleton_of_nodup hncnd hpcmem]
    rfl

theorem claim10_all_posts_witness :
    "all_posts" ∉ (["x", "y"] : List String) ∧
    ∃ ag, dictLookup
        [("x", [("a", 5)]), ("y", [("b", 9)]),
         ("all_posts", [("b", 9), ("a", 5)])] "all_posts" = some ag ∧
      ag.countP (fun e => e = (("a", 5) : Entry)) = 1 := by
  have h := claim10_all_posts
    (fun st => if st = "9" then some 9 else some 5) ["x", "y"]
    [⟨"a", "x", "5"⟩, ⟨"b", "y", "9"⟩]
    (by decide) (by decide) (by decide) (by decide)
    ["x", "y"]
    [("x", [("a", 5)]), ("y", [("b", 9)]), ("all_posts", [("b", 9), ("a", 5)])]
    (by decide)
  obtain ⟨h1, ag, h2, _, h4, _⟩ := h
  exact ⟨h1, ag, h2, h4 ⟨"a", "x", "5"⟩ (by decide)⟩

/-- C9, counterexample: the claim fails when a content category is
itself named `all_posts`.  With `content/all_posts/post.md`, both
versions retain `all_posts` in the categories list with a non-empty
group, but the package version appends every post to the
`all_posts` group twice (category append then global append to the
same dict entry), so at count 2, offset 0 — inside the claim's common
domain — it returns the slug twice while the standalone version
returns it once. -/
theorem claim9_counterexample :
    SBGOld.sortPostsV1 (fun _ => some 5) ["all_posts"]
        [⟨"post", "all_posts", "5"⟩] =
      .ok (["all_posts"], [("all_posts", [("post", 5)])]) ∧
    sortPosts (fun _ => some 5) ["all_posts"] [⟨"post", "all_posts", "5"⟩] =
      .ok (["all_posts"], [("all_posts", [("post", 5), ("post", 5)])]) ∧
    SBGOld.getMostRecentPostTitlesV1 ["all_posts"]
        [("all_posts", [("post", 5)])] "all_posts" 2 0 =
      .ok (some ["post"]) ∧
    getMostRecentPostTitles ["all_posts"]
        [("all_posts", [("post", 5), ("post", 5)])] "all_posts" 2 0 =
      .ok ["post", "post"] := by
  refine ⟨by decide, by decide, by decide, by decide⟩

/-- C9, amended: provided no content category is itself named
`all_posts`, the two implementations agree on their common domain —
same loaded posts, same categories, a category whose group is
non-empty, a nonzero count and an offset below the group's length:
both pipelines succeed and return the same list of slugs (the
standalone version wrapping it in a non-`None` result). -/
theorem claim9_equivalence (parse : String → Option Nat)
    (categories : List String) (posts : List RawPost) (c : String)
    (n off : Nat)
    (hnd : categories.Nodup) (hap : "all_posts" ∉ categories)
    (hcat : ∀ p ∈ posts, p.category ∈ categories)
    (hparse : ∀ p ∈ posts, (parse p.dateString).isSome)
    (hc : c ∈ categories) (hgne : grouped parse posts c ≠ [])
    (hn : n ≠ 0) (hoff : off < (grouped parse posts c).length) :
    ∃ cats1 d1 cats2 d2 ts,
      SBGOld.sortPostsV1 parse categories posts = .ok (cats1, d1) ∧
      sortPosts parse categories posts = .ok (cats2, d2) ∧
      SBGOld.getMostRecentPostTitlesV1 cats1 d1 c n off = .ok (some ts) ∧
      getMostRecentPostTitles cats2 d2 c n off = .ok ts := by
  have hpne : posts ≠ [] := by
    intro h
    subst h
    exact hgne (by rw [grouped, List.filter_nil, List.map_nil])
  obtain ⟨d1, hok1, hlk1⟩ :=
    SBGOld.sortPostsV1_char parse categories posts hnd hcat hparse
  obtain ⟨d2, hok2, hlk2⟩ :=
    sortPosts_char parse categories posts hnd hap hcat hparse hpne
  have hcnc : c ∈ categories.filter
      (fun c => grouped parse posts c ≠ []) :=
    List.mem_filter.mpr ⟨hc, decide_eq_true hgne⟩
  have hlp1 : dictLookup d1 c = some (sortDesc (grouped parse posts c)) := by
    rw [hlk1 c, if_pos ⟨hc, hgne⟩]
  have hlp2 : dictLookup d2 c = some (sortDesc (grouped parse posts c)) := by
    rw [hlk2 c, if_neg (fun hh : c = "all_posts" => hap (hh ▸ hc)),
      if_pos ⟨hc, hgne⟩]
  have hoff2 : off < (sortDesc (grouped parse posts c)).length := by
    rw [sortDesc_length]
    exact hoff
  refine ⟨_, d1, _, d2,
    (((sortDesc (grouped parse posts c)).map Prod.fst).drop off).take n,
    hok1, hok2, ?_, ?_⟩
  · exact SBGOld.getMostRecentV1_eval _ d1 c n off _ hn hcnc hlp1 hoff2
  · exact getMostRecent_eval _ d2 c n off _ hn (Or.inl hcnc) hlp2 hoff2

theorem claim9_equivalence_witness :
    ∃ cats1 d1 cats2 d2 ts,
      SBGOld.sortPostsV1 (fun st => if st = "9" then some 9 else some 5)
        ["x"] [⟨"a", "x", "5"⟩, ⟨"b", "x", "9"⟩] = .ok (cats1, d1) ∧
      sortPosts (fun st => if st = "9" then some 9 else some 5)
        ["x"] [⟨"a", "x", "5"⟩, ⟨"b", "x", "9"⟩] = .ok (cats2, d2) ∧
      SBGOld.getMostRecentPostTitlesV1 cats1 d1 "x" 1 1 = .ok (some ts) ∧
      getMostRecentPostTitles cats2 d2 "x" 1 1 = .ok ts :=
  claim9_equivalence (fun st => if st = "9" then some 9 else some 5)
    ["x"] [⟨"a", "x", "5"⟩, ⟨"b", "x", "9"⟩] "x" 1 1
    (by decide) (by decide) (by decide) (by decide) (by decide)
    (by decide) (by decide) (by decide)

end SBG
